import Mathlib

/-!
Verification of the FlashSQL key-value store (`FlashSQL/db.py`) and its value
codec (`LightSQL/encoding.py`).

The codec layer is a shallow embedding of `encode_value` / `decode_value`:
a one-byte tag (`0x01` for raw bytes, `0x02` for msgpack-serialized
structured values) followed by the payload.  The msgpack serializer used by
the Python code (`msgpack.packb` / `msgpack.unpackb(raw=False)`) is an
external library; it is modelled here byte-for-byte on the value domain the
codec uses (null, booleans, 64-bit-range integers, IEEE-754 doubles carried
as bit patterns, UTF-8 text carried as byte lists, binary blobs, arrays and
string-keyed maps), following the format choices of msgpack-python's packer.
Map keys are modelled as strings, which is the only key kind the encoder
ever emits.

The store layer models the SQLite table `FlashDB (key TEXT PRIMARY KEY,
value BLOB, expires_at INTEGER) WITHOUT ROWID` as a list of records in table
scan order, and each `Client` method as a function over that list; read-only
methods return their result together with the (unchanged) post-state, write
methods return the new state.  SQL `NULL` is `Option.none`, Python `None`
results are distinguished from raised exceptions by the `PyDecode` type.
-/

/-- Big-endian byte string of width `k` for the natural number `n`
(truncated mod `256 ^ k`), least significant byte last. -/
def beBytes : Nat → Nat → List Nat
  | 0, _ => []
  | k + 1, n => beBytes k (n / 256) ++ [n % 256]

/-- Read a big-endian byte string back into a natural number. -/
def beVal (bs : List Nat) : Nat := bs.foldl (fun a b => a * 256 + b) 0

theorem beBytes_length (k n : Nat) : (beBytes k n).length = k := by
  induction k generalizing n with
  | zero => rfl
  | succ k ih => simp [beBytes, ih]

theorem beVal_aux (k n a : Nat) (h : n < 256 ^ k) :
    (beBytes k n).foldl (fun x b => x * 256 + b) a = a * 256 ^ k + n := by
  induction k generalizing n a with
  | zero =>
    interval_cases n
    simp [beBytes]
  | succ k ih =>
    have hdiv : n / 256 < 256 ^ k := by
      rw [Nat.div_lt_iff_lt_mul (by norm_num)]
      calc n < 256 ^ (k + 1) := h
        _ = 256 ^ k * 256 := by ring
    simp only [beBytes, List.foldl_append, List.foldl_cons, List.foldl_nil]
    rw [ih (n / 256) a hdiv]
    have := Nat.div_add_mod n 256
    ring_nf
    omega

theorem beVal_beBytes (k n : Nat) (h : n < 256 ^ k) :
    beVal (beBytes k n) = n := by
  have := beVal_aux k n 0 h
  simpa [beVal] using this

/-- Read exactly `k` bytes as a big-endian number, returning the rest. -/
def readExact (k : Nat) (bs : List Nat) : Option (Nat × List Nat) :=
  if k ≤ bs.length then some (beVal (bs.take k), bs.drop k) else none

theorem readExact_beBytes (k n : Nat) (rest : List Nat) (h : n < 256 ^ k) :
    readExact k (beBytes k n ++ rest) = some (n, rest) := by
  have hl : (beBytes k n).length = k := beBytes_length k n
  unfold readExact
  rw [if_pos (by simp [hl])]
  rw [List.take_left' hl, List.drop_left' hl]
  rw [beVal_beBytes k n h]

mutual

/-- A Python value in the domain of the codec: `bytes`, `int`, `float`
(carried as its IEEE-754 bit pattern), `bool`, `str` (carried as its UTF-8
byte sequence), `None`, `list` and `dict` with `str` keys. -/
inductive Value where
  | vbin (bs : List Nat)
  | vint (n : Int)
  | vfloat (bits : Nat)
  | vbool (b : Bool)
  | vstr (s : List Nat)
  | vnull
  | varr (vs : ValueList)
  | vmap (kvs : ValueMap)

/-- A Python list of codec values. -/
inductive ValueList where
  | nil
  | cons (v : Value) (vs : ValueList)

/-- A Python dict from `str` keys to codec values, in insertion order. -/
inductive ValueMap where
  | mnil
  | mcons (k : List Nat) (v : Value) (kvs : ValueMap)

end

def ValueList.length : ValueList → Nat
  | .nil => 0
  | .cons _ vs => 1 + vs.length

def ValueMap.length : ValueMap → Nat
  | .mnil => 0
  | .mcons _ _ kvs => 1 + kvs.length

/-- msgpack-python's integer packer: smallest format whose range holds the
value, `uint64` for large positives, `OverflowError` (here `none`) outside
`[-2^63, 2^64)`. -/
def packInt (n : Int) : Option (List Nat) :=
  if 0 ≤ n ∧ n < 0x80 then some [n.toNat]
  else if -0x20 ≤ n ∧ n < 0 then some [(n + 0x100).toNat]
  else if 0x80 ≤ n ∧ n ≤ 0xff then some [0xcc, n.toNat]
  else if -0x80 ≤ n ∧ n < -0x20 then some [0xd0, (n + 0x100).toNat]
  else if 0xff < n ∧ n ≤ 0xffff then some (0xcd :: beBytes 2 n.toNat)
  else if -0x8000 ≤ n ∧ n < -0x80 then some (0xd1 :: beBytes 2 (n + 0x10000).toNat)
  else if 0xffff < n ∧ n ≤ 0xffffffff then some (0xce :: beBytes 4 n.toNat)
  else if -0x80000000 ≤ n ∧ n < -0x8000 then some (0xd2 :: beBytes 4 (n + 0x100000000).toNat)
  else if 0xffffffff < n ∧ n ≤ 0xffffffffffffffff then some (0xcf :: beBytes 8 n.toNat)
  else if -0x8000000000000000 ≤ n ∧ n < -0x80000000 then
    some (0xd3 :: beBytes 8 (n + 0x10000000000000000).toNat)
  else none

/-- msgpack-python's string packer (`use_bin_type` default): fixstr, str8,
str16 or str32 by length; lengths of `2^32` or more overflow. -/
def packStr (s : List Nat) : Option (List Nat) :=
  if s.length ≤ 31 then some ((0xa0 + s.length) :: s)
  else if s.length ≤ 0xff then some (0xd9 :: s.length :: s)
  else if s.length ≤ 0xffff then some (0xda :: (beBytes 2 s.length ++ s))
  else if s.length ≤ 0xffffffff then some (0xdb :: (beBytes 4 s.length ++ s))
  else none

/-- msgpack-python's bytes packer: bin8, bin16 or bin32 by length. -/
def packBin (bs : List Nat) : Option (List Nat) :=
  if bs.length ≤ 0xff then some (0xc4 :: bs.length :: bs)
  else if bs.length ≤ 0xffff then some (0xc5 :: (beBytes 2 bs.length ++ bs))
  else if bs.length ≤ 0xffffffff then some (0xc6 :: (beBytes 4 bs.length ++ bs))
  else none

/-- msgpack array header: fixarray, array16 or array32 by element count. -/
def arrHeader (n : Nat) : Option (List Nat) :=
  if n ≤ 15 then some [0x90 + n]
  else if n ≤ 0xffff then some (0xdc :: beBytes 2 n)
  else if n ≤ 0xffffffff then some (0xdd :: beBytes 4 n)
  else none

/-- msgpack map header: fixmap, map16 or map32 by pair count. -/
def mapHeader (n : Nat) : Option (List Nat) :=
  if n ≤ 15 then some [0x80 + n]
  else if n ≤ 0xffff then some (0xde :: beBytes 2 n)
  else if n ≤ 0xffffffff then some (0xdf :: beBytes 4 n)
  else none

mutual

/-- Model of `msgpack.packb`: serialize one value, `none` models the raised
`OverflowError`/`ValueError` on out-of-range data. -/
def packb : Value → Option (List Nat)
  | .vnull => some [0xc0]
  | .vbool false => some [0xc2]
  | .vbool true => some [0xc3]
  | .vint n => packInt n
  | .vfloat bits => some (0xcb :: beBytes 8 bits)
  | .vstr s => packStr s
  | .vbin bs => packBin bs
  | .varr vs =>
    match arrHeader vs.length, packList vs with
    | some hdr, some body => some (hdr ++ body)
    | _, _ => none
  | .vmap kvs =>
    match mapHeader kvs.length, packMap kvs with
    | some hdr, some body => some (hdr ++ body)
    | _, _ => none

/-- Serialize the elements of an array in order. -/
def packList : ValueList → Option (List Nat)
  | .nil => some []
  | .cons v vs =>
    match packb v, packList vs with
    | some a, some b => some (a ++ b)
    | _, _ => none

/-- Serialize the key/value pairs of a map in insertion order, each key as a
msgpack string. -/
def packMap : ValueMap → Option (List Nat)
  | .mnil => some []
  | .mcons k v kvs =>
    match packStr k, packb v, packMap kvs with
    | some a, some b, some c => some (a ++ b ++ c)
    | _, _, _ => none

end

/-- Two's-complement reading of a `k`-byte big-endian payload. -/
def sInt (k : Nat) (m : Nat) : Int :=
  if m < 2 ^ (8 * k - 1) then (m : Int) else (m : Int) - 2 ^ (8 * k)

/-- Read `len` raw bytes as the body of a msgpack string. -/
def readStr (len : Nat) (bs : List Nat) : Option (Value × List Nat) :=
  if len ≤ bs.length then some (.vstr (bs.take len), bs.drop len) else none

/-- Read `len` raw bytes as the body of a msgpack bin. -/
def readBin (len : Nat) (bs : List Nat) : Option (Value × List Nat) :=
  if len ≤ bs.length then some (.vbin (bs.take len), bs.drop len) else none

/-- Python dict insertion: an existing key keeps its position and takes the
new value, a new key is appended. -/
def mapInsert : ValueMap → List Nat → Value → ValueMap
  | .mnil, k, v => .mcons k v .mnil
  | .mcons k' v' rest, k, v =>
    if k = k' then .mcons k' v rest else .mcons k' v' (mapInsert rest k v)

mutual

/-- Model of msgpack's deserializer on the formats the packer above emits
(the codec's whole domain): parse one object from the front of the input and
return it with the remaining bytes; `none` models a raised unpack error.
`fuel` bounds the nesting depth and only decreases on entering a container,
so any fuel of at least the input length behaves as the untruncated parser. -/
def unpackOne : Nat → List Nat → Option (Value × List Nat)
  | 0, _ => none
  | _ + 1, [] => none
  | fuel + 1, b :: rest =>
    if b < 0x80 then some (.vint b, rest)
    else if b < 0x90 then
      match unpackMapN fuel (b - 0x80) rest ValueMap.mnil with
      | some (kvs, r) => some (.vmap kvs, r)
      | none => none
    else if b < 0xa0 then
      match unpackArrN fuel (b - 0x90) rest with
      | some (vs, r) => some (.varr vs, r)
      | none => none
    else if b < 0xc0 then readStr (b - 0xa0) rest
    else if 0xe0 ≤ b then some (.vint ((b : Int) - 0x100), rest)
    else
      match b, rest with
      | 0xc0, r => some (.vnull, r)
      | 0xc2, r => some (.vbool false, r)
      | 0xc3, r => some (.vbool true, r)
      | 0xc4, len :: r => readBin len r
      | 0xc5, r =>
        match readExact 2 r with
        | some (len, r2) => readBin len r2
        | none => none
      | 0xc6, r =>
        match readExact 4 r with
        | some (len, r2) => readBin len r2
        | none => none
      | 0xcb, r =>
        match readExact 8 r with
        | some (m, r2) => some (.vfloat m, r2)
        | none => none
      | 0xcc, x :: r => some (.vint x, r)
      | 0xcd, r =>
        match readExact 2 r with
        | some (m, r2) => some (.vint m, r2)
        | none => none
      | 0xce, r =>
        match readExact 4 r with
        | some (m, r2) => some (.vint m, r2)
        | none => none
      | 0xcf, r =>
        match readExact 8 r with
        | some (m, r2) => some (.vint m, r2)
        | none => none
      | 0xd0, x :: r => some (.vint (sInt 1 x), r)
      | 0xd1, r =>
        match readExact 2 r with
        | some (m, r2) => some (.vint (sInt 2 m), r2)
        | none => none
      | 0xd2, r =>
        match readExact 4 r with
        | some (m, r2) => some (.vint (sInt 4 m), r2)
        | none => none
      | 0xd3, r =>
        match readExact 8 r with
        | some (m, r2) => some (.vint (sInt 8 m), r2)
        | none => none
      | 0xd9, len :: r => readStr len r
      | 0xda, r =>
        match readExact 2 r with
        | some (len, r2) => readStr len r2
        | none => none
      | 0xdb, r =>
        match readExact 4 r with
        | some (len, r2) => readStr len r2
        | none => none
      | 0xdc, r =>
        match readExact 2 r with
        | some (n, r2) =>
          match unpackArrN fuel n r2 with
          | some (vs, r3) => some (.varr vs, r3)
          | none => none
        | none => none
      | 0xdd, r =>
        match readExact 4 r with
        | some (n, r2) =>
          match unpackArrN fuel n r2 with
          | some (vs, r3) => some (.varr vs, r3)
          | none => none
        | none => none
      | 0xde, r =>
        match readExact 2 r with
        | some (n, r2) =>
          match unpackMapN fuel n r2 ValueMap.mnil with
          | some (kvs, r3) => some (.vmap kvs, r3)
          | none => none
        | none => none
      | 0xdf, r =>
        match readExact 4 r with
        | some (n, r2) =>
          match unpackMapN fuel n r2 ValueMap.mnil with
          | some (kvs, r3) => some (.vmap kvs, r3)
          | none => none
        | none => none
      | _, _ => none
termination_by fuel bs => (fuel, 0)

/-- Parse `n` consecutive objects as the elements of an array. -/
def unpackArrN : Nat → Nat → List Nat → Option (ValueList × List Nat)
  | _, 0, bs => some (.nil, bs)
  | fuel, n + 1, bs =>
    match unpackOne fuel bs with
    | some (v, r) =>
      match unpackArrN fuel n r with
      | some (vs, r2) => some (.cons v vs, r2)
      | none => none
    | none => none
termination_by fuel n bs => (fuel, n + 1)

/-- Parse `n` consecutive key/value pairs into a dict built by insertion;
only string keys are parsed, the only key kind the packer emits. -/
def unpackMapN : Nat → Nat → List Nat → ValueMap → Option (ValueMap × List Nat)
  | _, 0, bs, acc => some (acc, bs)
  | fuel, n + 1, bs, acc =>
    match unpackOne fuel bs with
    | some (.vstr k, r) =>
      match unpackOne fuel r with
      | some (v, r2) => unpackMapN fuel n r2 (mapInsert acc k v)
      | none => none
    | _ => none
termination_by fuel n bs acc => (fuel, n + 1)

end

/-- Model of `msgpack.unpackb(buffer, raw=False)`: parse exactly one object
covering the whole buffer; trailing bytes, truncation or a foreign format
byte raise (`none`). -/
def unpackb (bs : List Nat) : Option Value :=
  match unpackOne (bs.length + 1) bs with
  | some (v, []) => some v
  | _ => none

mutual

/-- Fuel sufficient for `unpackOne` to parse this value: one unit per
nesting level. -/
def needFuel : Value → Nat
  | .varr vs => needFuelL vs + 1
  | .vmap kvs => needFuelM kvs + 1
  | _ => 1

def needFuelL : ValueList → Nat
  | .nil => 0
  | .cons v vs => max (needFuel v) (needFuelL vs)

def needFuelM : ValueMap → Nat
  | .mnil => 0
  | .mcons _ v kvs => max (needFuel v) (needFuelM kvs)

end

/-- Whether a dict holds the given key. -/
def ValueMap.hasKey : ValueMap → List Nat → Bool
  | .mnil, _ => false
  | .mcons k' _ rest, k => if k = k' then true else rest.hasKey k

/-- Whether the dict's keys are pairwise distinct (always true of a Python
dict). -/
def noDupKeysM : ValueMap → Bool
  | .mnil => true
  | .mcons k _ rest => !rest.hasKey k && noDupKeysM rest

/-- Concatenation of two key/value pair sequences. -/
def ValueMap.append : ValueMap → ValueMap → ValueMap
  | .mnil, m => m
  | .mcons k v rest, m => .mcons k v (rest.append m)

/-- Insert every pair of the second map into the first, in order, with
Python dict semantics. -/
def insertAll : ValueMap → ValueMap → ValueMap
  | acc, .mnil => acc
  | acc, .mcons k v rest => insertAll (mapInsert acc k v) rest

mutual

/-- The value domain `msgpack.packb` accepts, which is also the domain the
spec calls codec-representable: integers in the 64-bit signed/unsigned
window, byte-valued text and blobs below the 32-bit length limits,
containers below the 32-bit count limits, dict keys distinct, float bit
patterns of width 64. -/
def reprOK : Value → Bool
  | .vbin bs => decide (bs.length ≤ 0xffffffff) && bs.all (fun b => decide (b < 256))
  | .vint n => decide (-0x8000000000000000 ≤ n) && decide (n ≤ 0xffffffffffffffff)
  | .vfloat bits => decide (bits < 2 ^ 64)
  | .vbool _ => true
  | .vstr s => decide (s.length ≤ 0xffffffff) && s.all (fun b => decide (b < 256))
  | .vnull => true
  | .varr vs => decide (vs.length ≤ 0xffffffff) && reprOKL vs
  | .vmap kvs => decide (kvs.length ≤ 0xffffffff) && noDupKeysM kvs && reprOKM kvs

def reprOKL : ValueList → Bool
  | .nil => true
  | .cons v vs => reprOK v && reprOKL vs

def reprOKM : ValueMap → Bool
  | .mnil => true
  | .mcons k v kvs =>
    (decide (k.length ≤ 0xffffffff) && k.all (fun b => decide (b < 256))) &&
      reprOK v && reprOKM kvs

end

theorem mapInsert_of_not_hasKey (m : ValueMap) (k : List Nat) (v : Value)
    (h : m.hasKey k = false) :
    mapInsert m k v = m.append (.mcons k v .mnil) := by
  match m with
  | .mnil => rfl
  | .mcons k' v' rest =>
    unfold ValueMap.hasKey at h
    by_cases hk : k = k'
    · rw [if_pos hk] at h
      exact absurd h (by simp)
    · rw [if_neg hk] at h
      simp only [mapInsert, ValueMap.append]
      rw [if_neg hk, mapInsert_of_not_hasKey rest k v h]

theorem append_hasKey (m₁ m₂ : ValueMap) (k : List Nat) :
    (m₁.append m₂).hasKey k = (m₁.hasKey k || m₂.hasKey k) := by
  match m₁ with
  | .mnil => simp [ValueMap.append, ValueMap.hasKey]
  | .mcons k' v' rest =>
    simp only [ValueMap.append, ValueMap.hasKey]
    by_cases hk : k = k'
    · simp [hk]
    · simp only [if_neg hk, append_hasKey rest m₂ k]

theorem append_assocM (m₁ m₂ m₃ : ValueMap) :
    (m₁.append m₂).append m₃ = m₁.append (m₂.append m₃) := by
  match m₁ with
  | .mnil => rfl
  | .mcons k v rest =>
    simp only [ValueMap.append]
    rw [append_assocM rest m₂ m₃]

theorem append_mnil (m : ValueMap) : m.append .mnil = m := by
  match m with
  | .mnil => rfl
  | .mcons k v rest =>
    simp only [ValueMap.append]
    rw [append_mnil rest]

theorem insertAll_disjoint (kvs : ValueMap) :
    ∀ acc : ValueMap, noDupKeysM kvs = true →
      (∀ k, kvs.hasKey k = true → acc.hasKey k = false) →
      insertAll acc kvs = acc.append kvs := by
  match kvs with
  | .mnil => intro acc _ _; rw [insertAll, append_mnil]
  | .mcons k v rest =>
    intro acc hnd hdisj
    unfold noDupKeysM at hnd
    have hnd' : noDupKeysM rest = true := by
      rcases Bool.and_eq_true_iff.mp hnd with ⟨_, h2⟩; exact h2
    have hkrest : rest.hasKey k = false := by
      rcases Bool.and_eq_true_iff.mp hnd with ⟨h1, _⟩
      simpa using h1
    have hacck : acc.hasKey k = false := by
      apply hdisj
      unfold ValueMap.hasKey
      rw [if_pos rfl]
    rw [insertAll, mapInsert_of_not_hasKey acc k v hacck]
    rw [insertAll_disjoint rest (acc.append (.mcons k v .mnil)) hnd']
    · rw [append_assocM]
      rfl
    · intro k' hk'
      rw [append_hasKey]
      have hacc' : acc.hasKey k' = false := by
        apply hdisj
        unfold ValueMap.hasKey
        by_cases hkk : k' = k
        · rw [if_pos hkk]
        · rw [if_neg hkk]; exact hk'
      rw [hacc']
      unfold ValueMap.hasKey
      have hkk : ¬ k' = k := by
        intro hkk
        rw [hkk] at hk'
        exact absurd (hk'.symm.trans hkrest) (by simp)
      rw [if_neg hkk]
      simp [ValueMap.hasKey]

theorem insertAll_mnil (kvs : ValueMap) (h : noDupKeysM kvs = true) :
    insertAll .mnil kvs = kvs := by
  rw [insertAll_disjoint kvs .mnil h (fun k _ => rfl)]
  rfl

theorem sInt_low (k m : Nat) (h : m < 2 ^ (8 * k - 1)) : sInt k m = (m : Int) :=
  if_pos h

theorem sInt_high (k m : Nat) (h : 2 ^ (8 * k - 1) ≤ m) :
    sInt k m = (m : Int) - 2 ^ (8 * k) :=
  if_neg (Nat.not_lt.mpr h)

theorem readStr_exact (s r : List Nat) :
    readStr s.length (s ++ r) = some (.vstr s, r) := by
  unfold readStr
  rw [if_pos (by simp), List.take_left, List.drop_left]

theorem readBin_exact (s r : List Nat) :
    readBin s.length (s ++ r) = some (.vbin s, r) := by
  unfold readBin
  rw [if_pos (by simp), List.take_left, List.drop_left]

theorem unpack_cc (fuel x : Nat) (r : List Nat) :
    unpackOne (fuel + 1) (0xcc :: x :: r) = some (.vint x, r) := by
  rw [unpackOne, if_neg (by norm_num), if_neg (by norm_num), if_neg (by norm_num),
    if_neg (by norm_num), if_neg (by norm_num)]

theorem unpack_d0 (fuel x : Nat) (r : List Nat) :
    unpackOne (fuel + 1) (0xd0 :: x :: r) = some (.vint (sInt 1 x), r) := by
  rw [unpackOne, if_neg (by norm_num), if_neg (by norm_num), if_neg (by norm_num),
    if_neg (by norm_num), if_neg (by norm_num)]

theorem unpack_cd (fuel m : Nat) (r : List Nat) (h : m < 256 ^ 2) :
    unpackOne (fuel + 1) (0xcd :: (beBytes 2 m ++ r)) = some (.vint m, r) := by
  rw [unpackOne, if_neg (by norm_num), if_neg (by norm_num), if_neg (by norm_num),
    if_neg (by norm_num), if_neg (by norm_num), readExact_beBytes 2 m r h]

theorem unpack_ce (fuel m : Nat) (r : List Nat) (h : m < 256 ^ 4) :
    unpackOne (fuel + 1) (0xce :: (beBytes 4 m ++ r)) = some (.vint m, r) := by
  rw [unpackOne, if_neg (by norm_num), if_neg (by norm_num), if_neg (by norm_num),
    if_neg (by norm_num), if_neg (by norm_num), readExact_beBytes 4 m r h]

theorem unpack_cf (fuel m : Nat) (r : List Nat) (h : m < 256 ^ 8) :
    unpackOne (fuel + 1) (0xcf :: (beBytes 8 m ++ r)) = some (.vint m, r) := by
  rw [unpackOne, if_neg (by norm_num), if_neg (by norm_num), if_neg (by norm_num),
    if_neg (by norm_num), if_neg (by norm_num), readExact_beBytes 8 m r h]

theorem unpack_d1 (fuel m : Nat) (r : List Nat) (h : m < 256 ^ 2) :
    unpackOne (fuel + 1) (0xd1 :: (beBytes 2 m ++ r)) = some (.vint (sInt 2 m), r) := by
  rw [unpackOne, if_neg (by norm_num), if_neg (by norm_num), if_neg (by norm_num),
    if_neg (by norm_num), if_neg (by norm_num), readExact_beBytes 2 m r h]

theorem unpack_d2 (fuel m : Nat) (r : List Nat) (h : m < 256 ^ 4) :
    unpackOne (fuel + 1) (0xd2 :: (beBytes 4 m ++ r)) = some (.vint (sInt 4 m), r) := by
  rw [unpackOne, if_neg (by norm_num), if_neg (by norm_num), if_neg (by norm_num),
    if_neg (by norm_num), if_neg (by norm_num), readExact_beBytes 4 m r h]

theorem unpack_d3 (fuel m : Nat) (r : List Nat) (h : m < 256 ^ 8) :
    unpackOne (fuel + 1) (0xd3 :: (beBytes 8 m ++ r)) = some (.vint (sInt 8 m), r) := by
  rw [unpackOne, if_neg (by norm_num), if_neg (by norm_num), if_neg (by norm_num),
    if_neg (by norm_num), if_neg (by norm_num), readExact_beBytes 8 m r h]

theorem unpack_cb (fuel m : Nat) (r : List Nat) (h : m < 256 ^ 8) :
    unpackOne (fuel + 1) (0xcb :: (beBytes 8 m ++ r)) = some (.vfloat m, r) := by
  rw [unpackOne, if_neg (by norm_num), if_neg (by norm_num), if_neg (by norm_num),
    if_neg (by norm_num), if_neg (by norm_num), readExact_beBytes 8 m r h]

theorem unpack_fixstr (fuel : Nat) (s r : List Nat) (h : s.length ≤ 31) :
    unpackOne (fuel + 1) ((0xa0 + s.length) :: (s ++ r)) = some (.vstr s, r) := by
  rw [unpackOne, if_neg (by omega), if_neg (by omega), if_neg (by omega),
    if_pos (by omega)]
  · rw [Nat.add_sub_cancel_left]
    exact readStr_exact s r
  all_goals (intros; omega)

theorem unpack_str8 (fuel : Nat) (s r : List Nat) :
    unpackOne (fuel + 1) (0xd9 :: s.length :: (s ++ r)) = some (.vstr s, r) := by
  rw [unpackOne, if_neg (by norm_num), if_neg (by norm_num), if_neg (by norm_num),
    if_neg (by norm_num), if_neg (by norm_num)]
  exact readStr_exact s r

theorem unpack_str16 (fuel : Nat) (s r : List Nat) (h : s.length < 256 ^ 2) :
    unpackOne (fuel + 1) (0xda :: (beBytes 2 s.length ++ (s ++ r))) =
      some (.vstr s, r) := by
  rw [unpackOne, if_neg (by norm_num), if_neg (by norm_num), if_neg (by norm_num),
    if_neg (by norm_num), if_neg (by norm_num), readExact_beBytes 2 s.length (s ++ r) h]
  exact readStr_exact s r

theorem unpack_str32 (fuel : Nat) (s r : List Nat) (h : s.length < 256 ^ 4) :
    unpackOne (fuel + 1) (0xdb :: (beBytes 4 s.length ++ (s ++ r))) =
      some (.vstr s, r) := by
  rw [unpackOne, if_neg (by norm_num), if_neg (by norm_num), if_neg (by norm_num),
    if_neg (by norm_num), if_neg (by norm_num), readExact_beBytes 4 s.length (s ++ r) h]
  exact readStr_exact s r

theorem unpack_bin8 (fuel : Nat) (s r : List Nat) :
    unpackOne (fuel + 1) (0xc4 :: s.length :: (s ++ r)) = some (.vbin s, r) := by
  rw [unpackOne, if_neg (by norm_num), if_neg (by norm_num), if_neg (by norm_num),
    if_neg (by norm_num), if_neg (by norm_num)]
  exact readBin_exact s r

theorem unpack_bin16 (fuel : Nat) (s r : List Nat) (h : s.length < 256 ^ 2) :
    unpackOne (fuel + 1) (0xc5 :: (beBytes 2 s.length ++ (s ++ r))) =
      some (.vbin s, r) := by
  rw [unpackOne, if_neg (by norm_num), if_neg (by norm_num), if_neg (by norm_num),
    if_neg (by norm_num), if_neg (by norm_num), readExact_beBytes 2 s.length (s ++ r) h]
  exact readBin_exact s r

theorem unpack_bin32 (fuel : Nat) (s r : List Nat) (h : s.length < 256 ^ 4) :
    unpackOne (fuel + 1) (0xc6 :: (beBytes 4 s.length ++ (s ++ r))) =
      some (.vbin s, r) := by
  rw [unpackOne, if_neg (by norm_num), if_neg (by norm_num), if_neg (by norm_num),
    if_neg (by norm_num), if_neg (by norm_num), readExact_beBytes 4 s.length (s ++ r) h]
  exact readBin_exact s r

theorem unpack_fixarr (fuel n : Nat) (rest : List Nat) (h : n ≤ 15) :
    unpackOne (fuel + 1) ((0x90 + n) :: rest) =
      (match unpackArrN fuel n rest with
       | some (vs, r2) => some (Value.varr vs, r2)
       | none => none) := by
  rw [unpackOne, if_neg (by omega), if_neg (by omega), if_pos (by omega)]
  · rw [Nat.add_sub_cancel_left]
  all_goals (intros; omega)

theorem unpack_arr16 (fuel n : Nat) (rest : List Nat) (h : n < 256 ^ 2) :
    unpackOne (fuel + 1) (0xdc :: (beBytes 2 n ++ rest)) =
      (match unpackArrN fuel n rest with
       | some (vs, r2) => some (Value.varr vs, r2)
       | none => none) := by
  rw [unpackOne, if_neg (by norm_num), if_neg (by norm_num), if_neg (by norm_num),
    if_neg (by norm_num), if_neg (by norm_num), readExact_beBytes 2 n rest h]

theorem unpack_arr32 (fuel n : Nat) (rest : List Nat) (h : n < 256 ^ 4) :
    unpackOne (fuel + 1) (0xdd :: (beBytes 4 n ++ rest)) =
      (match unpackArrN fuel n rest with
       | some (vs, r2) => some (Value.varr vs, r2)
       | none => none) := by
  rw [unpackOne, if_neg (by norm_num), if_neg (by norm_num), if_neg (by norm_num),
    if_neg (by norm_num), if_neg (by norm_num), readExact_beBytes 4 n rest h]

theorem unpack_fixmap (fuel n : Nat) (rest : List Nat) (h : n ≤ 15) :
    unpackOne (fuel + 1) ((0x80 + n) :: rest) =
      (match unpackMapN fuel n rest ValueMap.mnil with
       | some (kvs, r2) => some (Value.vmap kvs, r2)
       | none => none) := by
  rw [unpackOne, if_neg (by omega), if_pos (by omega)]
  · rw [Nat.add_sub_cancel_left]
  all_goals (intros; omega)

theorem unpack_map16 (fuel n : Nat) (rest : List Nat) (h : n < 256 ^ 2) :
    unpackOne (fuel + 1) (0xde :: (beBytes 2 n ++ rest)) =
      (match unpackMapN fuel n rest ValueMap.mnil with
       | some (kvs, r2) => some (Value.vmap kvs, r2)
       | none => none) := by
  rw [unpackOne, if_neg (by norm_num), if_neg (by norm_num), if_neg (by norm_num),
    if_neg (by norm_num), if_neg (by norm_num), readExact_beBytes 2 n rest h]

theorem unpack_map32 (fuel n : Nat) (rest : List Nat) (h : n < 256 ^ 4) :
    unpackOne (fuel + 1) (0xdf :: (beBytes 4 n ++ rest)) =
      (match unpackMapN fuel n rest ValueMap.mnil with
       | some (kvs, r2) => some (Value.vmap kvs, r2)
       | none => none) := by
  rw [unpackOne, if_neg (by norm_num), if_neg (by norm_num), if_neg (by norm_num),
    if_neg (by norm_num), if_neg (by norm_num), readExact_beBytes 4 n rest h]

set_option maxHeartbeats 3200000 in
theorem unpackOne_packInt (n : Int) (bs r : List Nat) (fuel : Nat)
    (h : packInt n = some bs) :
    unpackOne (fuel + 1) (bs ++ r) = some (.vint n, r) := by
  unfold packInt at h
  split at h
  case isTrue hc =>
    cases h
    simp only [List.singleton_append]
    rw [unpackOne, if_pos (by omega : n.toNat < 0x80)]
    · rw [Int.toNat_of_nonneg (by omega : (0:Int) <= n)]
    all_goals (intros; omega)
  case isFalse =>
    split at h
    case isTrue hc =>
      cases h
      simp only [List.singleton_append]
      rw [unpackOne, if_neg (by omega), if_neg (by omega), if_neg (by omega),
        if_neg (by omega), if_pos (by omega : 0xe0 <= (n + 0x100).toNat)]
      · have he : (((n + 0x100).toNat : Nat) : Int) - 0x100 = n := by omega
        rw [he]
      all_goals (intros; omega)
    case isFalse =>
      split at h
      case isTrue hc =>
        cases h
        simp only [List.cons_append, List.nil_append]
        conv_rhs => rw [show n = ((n.toNat : Nat) : Int) from (Int.toNat_of_nonneg (by omega)).symm]
        exact unpack_cc fuel n.toNat r
      case isFalse =>
        split at h
        case isTrue hc =>
          have hs : sInt 1 ((n + 0x100).toNat) = n := by
            rw [sInt_high 1 _ (by norm_num; omega)]
            norm_num
            omega
          cases h
          simp only [List.cons_append, List.nil_append]
          conv_rhs => rw [show n = sInt 1 ((n + 0x100).toNat) from hs.symm]
          exact unpack_d0 fuel ((n + 0x100).toNat) r
        case isFalse =>
          split at h
          case isTrue hc =>
            cases h
            simp only [List.cons_append, List.nil_append]
            conv_rhs => rw [show n = ((n.toNat : Nat) : Int) from (Int.toNat_of_nonneg (by omega)).symm]
            exact unpack_cd fuel n.toNat r (by norm_num; omega)
          case isFalse =>
            split at h
            case isTrue hc =>
              have hs : sInt 2 ((n + 0x10000).toNat) = n := by
                rw [sInt_high 2 _ (by norm_num; omega)]
                norm_num
                omega
              cases h
              simp only [List.cons_append, List.nil_append]
              conv_rhs => rw [show n = sInt 2 ((n + 0x10000).toNat) from hs.symm]
              exact unpack_d1 fuel ((n + 0x10000).toNat) r (by norm_num; omega)
            case isFalse =>
              split at h
              case isTrue hc =>
                cases h
                simp only [List.cons_append, List.nil_append]
                conv_rhs => rw [show n = ((n.toNat : Nat) : Int) from (Int.toNat_of_nonneg (by omega)).symm]
                exact unpack_ce fuel n.toNat r (by norm_num; omega)
              case isFalse =>
                split at h
                case isTrue hc =>
                  have hs : sInt 4 ((n + 0x100000000).toNat) = n := by
                    rw [sInt_high 4 _ (by norm_num; omega)]
                    norm_num
                    omega
                  cases h
                  simp only [List.cons_append, List.nil_append]
                  conv_rhs => rw [show n = sInt 4 ((n + 0x100000000).toNat) from hs.symm]
                  exact unpack_d2 fuel ((n + 0x100000000).toNat) r (by norm_num; omega)
                case isFalse =>
                  split at h
                  case isTrue hc =>
                    cases h
                    simp only [List.cons_append, List.nil_append]
                    conv_rhs => rw [show n = ((n.toNat : Nat) : Int) from (Int.toNat_of_nonneg (by omega)).symm]
                    exact unpack_cf fuel n.toNat r (by norm_num; omega)
                  case isFalse =>
                    split at h
                    case isTrue hc =>
                      have hs : sInt 8 ((n + 0x10000000000000000).toNat) = n := by
                        rw [sInt_high 8 _ (by norm_num; omega)]
                        norm_num
                        omega
                      cases h
                      simp only [List.cons_append, List.nil_append]
                      conv_rhs => rw [show n = sInt 8 ((n + 0x10000000000000000).toNat) from hs.symm]
                      exact unpack_d3 fuel ((n + 0x10000000000000000).toNat) r (by norm_num; omega)
                    case isFalse =>
                      cases h

theorem unpackOne_packStr (s bs r : List Nat) (fuel : Nat)
    (h : packStr s = some bs) :
    unpackOne (fuel + 1) (bs ++ r) = some (.vstr s, r) := by
  unfold packStr at h
  split at h
  case isTrue hc =>
    cases h
    simp only [List.cons_append]
    exact unpack_fixstr fuel s r hc
  case isFalse =>
    split at h
    case isTrue hc =>
      cases h
      simp only [List.cons_append]
      exact unpack_str8 fuel s r
    case isFalse =>
      split at h
      case isTrue hc =>
        cases h
        simp only [List.cons_append, List.append_assoc]
        exact unpack_str16 fuel s r (by norm_num; omega)
      case isFalse =>
        split at h
        case isTrue hc =>
          cases h
          simp only [List.cons_append, List.append_assoc]
          exact unpack_str32 fuel s r (by norm_num; omega)
        case isFalse =>
          cases h

theorem unpackOne_packBin (s bs r : List Nat) (fuel : Nat)
    (h : packBin s = some bs) :
    unpackOne (fuel + 1) (bs ++ r) = some (.vbin s, r) := by
  unfold packBin at h
  split at h
  case isTrue hc =>
    cases h
    simp only [List.cons_append]
    exact unpack_bin8 fuel s r
  case isFalse =>
    split at h
    case isTrue hc =>
      cases h
      simp only [List.cons_append, List.append_assoc]
      exact unpack_bin16 fuel s r (by norm_num; omega)
    case isFalse =>
      split at h
      case isTrue hc =>
        cases h
        simp only [List.cons_append, List.append_assoc]
        exact unpack_bin32 fuel s r (by norm_num; omega)
      case isFalse =>
        cases h

mutual

/-- Parsing inverts serialization: on any representable value, parsing the
packed bytes followed by anything returns the value and the leftover, given
fuel at least the nesting depth. -/
theorem unpackOne_packb (v : Value) (bs r : List Nat) (fuel : Nat)
    (h : packb v = some bs) (hr : reprOK v = true) (hf : needFuel v ≤ fuel) :
    unpackOne fuel (bs ++ r) = some (v, r) := by
  match v with
  | .vnull =>
    cases h
    obtain ⟨f, rfl⟩ : ∃ f, fuel = f + 1 := ⟨fuel - 1, by simp [needFuel] at hf; omega⟩
    simp [unpackOne]
  | .vbool true =>
    cases h
    obtain ⟨f, rfl⟩ : ∃ f, fuel = f + 1 := ⟨fuel - 1, by simp [needFuel] at hf; omega⟩
    simp [unpackOne]
  | .vbool false =>
    cases h
    obtain ⟨f, rfl⟩ : ∃ f, fuel = f + 1 := ⟨fuel - 1, by simp [needFuel] at hf; omega⟩
    simp [unpackOne]
  | .vint n =>
    obtain ⟨f, rfl⟩ : ∃ f, fuel = f + 1 := ⟨fuel - 1, by simp [needFuel] at hf; omega⟩
    exact unpackOne_packInt n bs r f h
  | .vfloat bits =>
    cases h
    obtain ⟨f, rfl⟩ : ∃ f, fuel = f + 1 := ⟨fuel - 1, by simp [needFuel] at hf; omega⟩
    have hb : bits < 256 ^ 8 := by
      have := of_decide_eq_true hr
      norm_num
      omega
    simp only [List.cons_append]
    exact unpack_cb f bits r hb
  | .vstr s =>
    obtain ⟨f, rfl⟩ : ∃ f, fuel = f + 1 := ⟨fuel - 1, by simp [needFuel] at hf; omega⟩
    exact unpackOne_packStr s bs r f h
  | .vbin s =>
    obtain ⟨f, rfl⟩ : ∃ f, fuel = f + 1 := ⟨fuel - 1, by simp [needFuel] at hf; omega⟩
    exact unpackOne_packBin s bs r f h
  | .varr vs =>
    rw [packb] at h
    obtain ⟨f, rfl⟩ : ∃ f, fuel = f + 1 :=
      ⟨fuel - 1, by simp [needFuel] at hf; omega⟩
    have hfl : needFuelL vs ≤ f := by simp [needFuel] at hf; omega
    have hrl : reprOKL vs = true := by
      rw [reprOK] at hr
      exact (Bool.and_eq_true_iff.mp hr).2
    cases hhdr : arrHeader (ValueList.length vs) with
    | none => rw [hhdr] at h; cases hbody : packList vs <;> rw [hbody] at h <;> cases h
    | some hdr =>
      rw [hhdr] at h
      cases hbody : packList vs with
      | none => rw [hbody] at h; cases h
      | some body =>
        rw [hbody] at h
        cases h
        have harr := unpackArrN_packList vs body r f hbody hrl hfl
        unfold arrHeader at hhdr
        split at hhdr
        case isTrue hc =>
          cases hhdr
          simp only [List.cons_append, List.nil_append]
          rw [unpack_fixarr f (ValueList.length vs) (body ++ r) hc, harr]
        case isFalse =>
          split at hhdr
          case isTrue hc =>
            cases hhdr
            simp only [List.cons_append, List.append_assoc]
            rw [unpack_arr16 f (ValueList.length vs) (body ++ r) (by norm_num; omega), harr]
          case isFalse =>
            split at hhdr
            case isTrue hc =>
              cases hhdr
              simp only [List.cons_append, List.append_assoc]
              rw [unpack_arr32 f (ValueList.length vs) (body ++ r) (by norm_num; omega), harr]
            case isFalse =>
              cases hhdr
  | .vmap kvs =>
    rw [packb] at h
    obtain ⟨f, rfl⟩ : ∃ f, fuel = f + 1 :=
      ⟨fuel - 1, by simp [needFuel] at hf; omega⟩
    have hfm : needFuelM kvs ≤ f := by simp [needFuel] at hf; omega
    have hnd : noDupKeysM kvs = true := by
      rw [reprOK] at hr
      exact (Bool.and_eq_true_iff.mp (Bool.and_eq_true_iff.mp hr).1).2
    have hrm : reprOKM kvs = true := by
      rw [reprOK] at hr
      exact (Bool.and_eq_true_iff.mp hr).2
    cases hhdr : mapHeader (ValueMap.length kvs) with
    | none => rw [hhdr] at h; cases hbody : packMap kvs <;> rw [hbody] at h <;> cases h
    | some hdr =>
      rw [hhdr] at h
      cases hbody : packMap kvs with
      | none => rw [hbody] at h; cases h
      | some body =>
        rw [hbody] at h
        cases h
        have hmap := unpackMapN_packMap kvs body r f ValueMap.mnil hbody hrm hfm
        rw [insertAll_mnil kvs hnd] at hmap
        unfold mapHeader at hhdr
        split at hhdr
        case isTrue hc =>
          cases hhdr
          simp only [List.cons_append, List.nil_append]
          rw [unpack_fixmap f (ValueMap.length kvs) (body ++ r) hc, hmap]
        case isFalse =>
          split at hhdr
          case isTrue hc =>
            cases hhdr
            simp only [List.cons_append, List.append_assoc]
            rw [unpack_map16 f (ValueMap.length kvs) (body ++ r) (by norm_num; omega), hmap]
          case isFalse =>
            split at hhdr
            case isTrue hc =>
              cases hhdr
              simp only [List.cons_append, List.append_assoc]
              rw [unpack_map32 f (ValueMap.length kvs) (body ++ r) (by norm_num; omega), hmap]
            case isFalse =>
              cases hhdr

/-- Element-wise inversion for array bodies. -/
theorem unpackArrN_packList (vs : ValueList) (bs r : List Nat) (fuel : Nat)
    (h : packList vs = some bs) (hr : reprOKL vs = true)
    (hf : needFuelL vs ≤ fuel) :
    unpackArrN fuel (ValueList.length vs) (bs ++ r) = some (vs, r) := by
  match vs with
  | .nil =>
    cases h
    simp [ValueList.length, unpackArrN]
  | .cons v vs' =>
    rw [packList] at h
    cases hpv : packb v with
    | none => rw [hpv] at h; cases hpl : packList vs' <;> rw [hpl] at h <;> cases h
    | some a =>
      rw [hpv] at h
      cases hpl : packList vs' with
      | none => rw [hpl] at h; cases h
      | some b =>
        rw [hpl] at h
        cases h
        have hrv : reprOK v = true := by
          rw [reprOKL] at hr
          exact (Bool.and_eq_true_iff.mp hr).1
        have hrl : reprOKL vs' = true := by
          rw [reprOKL] at hr
          exact (Bool.and_eq_true_iff.mp hr).2
        have hfv : needFuel v ≤ fuel := by
          rw [needFuelL] at hf
          omega
        have hfl : needFuelL vs' ≤ fuel := by
          rw [needFuelL] at hf
          omega
        have hlen : ValueList.length (ValueList.cons v vs') = ValueList.length vs' + 1 := by
          rw [ValueList.length, Nat.add_comm]
        rw [hlen, List.append_assoc]
        rw [unpackArrN, unpackOne_packb v a (b ++ r) fuel hpv hrv hfv]
        show (match unpackArrN fuel (ValueList.length vs') (b ++ r) with
              | some (vs, r2) => some (ValueList.cons v vs, r2)
              | none => none) = _
        rw [unpackArrN_packList vs' b r fuel hpl hrl hfl]

/-- Pair-wise inversion for map bodies, building the dict by insertion. -/
theorem unpackMapN_packMap (kvs : ValueMap) (bs r : List Nat) (fuel : Nat)
    (acc : ValueMap) (h : packMap kvs = some bs) (hr : reprOKM kvs = true)
    (hf : needFuelM kvs ≤ fuel) :
    unpackMapN fuel (ValueMap.length kvs) (bs ++ r) acc =
      some (insertAll acc kvs, r) := by
  match kvs with
  | .mnil =>
    cases h
    simp [ValueMap.length, unpackMapN, insertAll]
  | .mcons k v kvs' =>
    rw [packMap] at h
    cases hpk : packStr k with
    | none =>
      rw [hpk] at h
      cases hpv : packb v <;> rw [hpv] at h <;>
        [skip; cases hpc : packMap kvs' <;> rw [hpc] at h] <;> cases h
    | some a =>
      rw [hpk] at h
      cases hpv : packb v with
      | none => rw [hpv] at h; cases hpc : packMap kvs' <;> rw [hpc] at h <;> cases h
      | some b =>
        rw [hpv] at h
        cases hpc : packMap kvs' with
        | none => rw [hpc] at h; cases h
        | some c =>
          rw [hpc] at h
          cases h
          have hrv : reprOK v = true := by
            rw [reprOKM] at hr
            exact (Bool.and_eq_true_iff.mp (Bool.and_eq_true_iff.mp hr).1).2
          have hrm : reprOKM kvs' = true := by
            rw [reprOKM] at hr
            exact (Bool.and_eq_true_iff.mp hr).2
          have hfv : needFuel v ≤ fuel := by
            rw [needFuelM] at hf
            omega
          have hfm : needFuelM kvs' ≤ fuel := by
            rw [needFuelM] at hf
            omega
          obtain ⟨f, rfl⟩ : ∃ f, fuel = f + 1 :=
            ⟨fuel - 1, by
              have h1 : 1 ≤ needFuel v := by
                match v with
                | .vnull | .vbool _ | .vint _ | .vfloat _ | .vstr _ | .vbin _ =>
                  simp [needFuel]
                | .varr _ | .vmap _ => simp [needFuel]
              omega⟩
          have hlen : ValueMap.length (ValueMap.mcons k v kvs') =
              ValueMap.length kvs' + 1 := by
            rw [ValueMap.length, Nat.add_comm]
          rw [hlen, List.append_assoc, List.append_assoc]
          rw [unpackMapN, unpackOne_packStr k a (b ++ (c ++ r)) f hpk]
          show (match unpackOne (f + 1) (b ++ (c ++ r)) with
                | some (v2, r2) =>
                  unpackMapN (f + 1) (ValueMap.length kvs') r2 (mapInsert acc k v2)
                | none => none) = _
          rw [unpackOne_packb v b (c ++ r) (f + 1) hpv hrv hfv]
          show unpackMapN (f + 1) (ValueMap.length kvs') (c ++ r) (mapInsert acc k v) = _
          rw [unpackMapN_packMap kvs' c r (f + 1) (mapInsert acc k v) hpc hrm hfm]
          rw [insertAll]

end

theorem len_packInt (n : Int) (bs : List Nat) (h : packInt n = some bs) :
    1 ≤ bs.length := by
  unfold packInt at h
  split at h
  case isTrue hc =>
    cases h
    simp only [List.length_cons]
    omega
  case isFalse =>
    split at h
    case isTrue hc =>
      cases h
      simp only [List.length_cons]
      omega
    case isFalse =>
      split at h
      case isTrue hc =>
        cases h
        simp only [List.length_cons]
        omega
      case isFalse =>
        split at h
        case isTrue hc =>
          cases h
          simp only [List.length_cons]
          omega
        case isFalse =>
          split at h
          case isTrue hc =>
            cases h
            simp only [List.length_cons]
            omega
          case isFalse =>
            split at h
            case isTrue hc =>
              cases h
              simp only [List.length_cons]
              omega
            case isFalse =>
              split at h
              case isTrue hc =>
                cases h
                simp only [List.length_cons]
                omega
              case isFalse =>
                split at h
                case isTrue hc =>
                  cases h
                  simp only [List.length_cons]
                  omega
                case isFalse =>
                  split at h
                  case isTrue hc =>
                    cases h
                    simp only [List.length_cons]
                    omega
                  case isFalse =>
                    split at h
                    case isTrue hc =>
                      cases h
                      simp only [List.length_cons]
                      omega
                    case isFalse =>
                      cases h

theorem len_packStr (s : List Nat) (bs : List Nat) (h : packStr s = some bs) :
    1 ≤ bs.length := by
  unfold packStr at h
  split at h
  case isTrue hc =>
    cases h
    simp only [List.length_cons]
    omega
  case isFalse =>
    split at h
    case isTrue hc =>
      cases h
      simp only [List.length_cons]
      omega
    case isFalse =>
      split at h
      case isTrue hc =>
        cases h
        simp only [List.length_cons]
        omega
      case isFalse =>
        split at h
        case isTrue hc =>
          cases h
          simp only [List.length_cons]
          omega
        case isFalse =>
          cases h

theorem len_packBin (s : List Nat) (bs : List Nat) (h : packBin s = some bs) :
    1 ≤ bs.length := by
  unfold packBin at h
  split at h
  case isTrue hc =>
    cases h
    simp only [List.length_cons]
    omega
  case isFalse =>
    split at h
    case isTrue hc =>
      cases h
      simp only [List.length_cons]
      omega
    case isFalse =>
      split at h
      case isTrue hc =>
        cases h
        simp only [List.length_cons]
        omega
      case isFalse =>
        cases h

theorem len_arrHeader (n : Nat) (bs : List Nat) (h : arrHeader n = some bs) :
    1 ≤ bs.length := by
  unfold arrHeader at h
  split at h
  case isTrue hc =>
    cases h
    simp only [List.length_cons]
    omega
  case isFalse =>
    split at h
    case isTrue hc =>
      cases h
      simp only [List.length_cons]
      omega
    case isFalse =>
      split at h
      case isTrue hc =>
        cases h
        simp only [List.length_cons]
        omega
      case isFalse =>
        cases h

theorem len_mapHeader (n : Nat) (bs : List Nat) (h : mapHeader n = some bs) :
    1 ≤ bs.length := by
  unfold mapHeader at h
  split at h
  case isTrue hc =>
    cases h
    simp only [List.length_cons]
    omega
  case isFalse =>
    split at h
    case isTrue hc =>
      cases h
      simp only [List.length_cons]
      omega
    case isFalse =>
      split at h
      case isTrue hc =>
        cases h
        simp only [List.length_cons]
        omega
      case isFalse =>
        cases h

theorem packInt_total (n : Int) (h1 : -0x8000000000000000 ≤ n) (h2 : n ≤ 0xffffffffffffffff) :
    ∃ bs, packInt n = some bs := by
  unfold packInt
  repeat' split
  all_goals first
  | exact ⟨_, rfl⟩
  | (exfalso; omega)

theorem packStr_total (s : List Nat) (h1 : s.length ≤ 0xffffffff) :
    ∃ bs, packStr s = some bs := by
  unfold packStr
  repeat' split
  all_goals first
  | exact ⟨_, rfl⟩
  | (exfalso; omega)

theorem packBin_total (s : List Nat) (h1 : s.length ≤ 0xffffffff) :
    ∃ bs, packBin s = some bs := by
  unfold packBin
  repeat' split
  all_goals first
  | exact ⟨_, rfl⟩
  | (exfalso; omega)

theorem arrHeader_total (n : Nat) (h1 : n ≤ 0xffffffff) :
    ∃ bs, arrHeader n = some bs := by
  unfold arrHeader
  repeat' split
  all_goals first
  | exact ⟨_, rfl⟩
  | (exfalso; omega)

theorem mapHeader_total (n : Nat) (h1 : n ≤ 0xffffffff) :
    ∃ bs, mapHeader n = some bs := by
  unfold mapHeader
  repeat' split
  all_goals first
  | exact ⟨_, rfl⟩
  | (exfalso; omega)

mutual

/-- Serialization is total on representable values. -/
theorem packb_total (v : Value) (hr : reprOK v = true) :
    ∃ bs, packb v = some bs := by
  match v with
  | .vnull => exact ⟨_, rfl⟩
  | .vbool true => exact ⟨_, rfl⟩
  | .vbool false => exact ⟨_, rfl⟩
  | .vfloat bits => exact ⟨_, rfl⟩
  | .vint n =>
    rw [reprOK] at hr
    rw [Bool.and_eq_true_iff] at hr
    exact packInt_total n (of_decide_eq_true hr.1) (of_decide_eq_true hr.2)
  | .vstr s =>
    rw [reprOK] at hr
    rw [Bool.and_eq_true_iff] at hr
    exact packStr_total s (of_decide_eq_true hr.1)
  | .vbin s =>
    rw [reprOK] at hr
    rw [Bool.and_eq_true_iff] at hr
    exact packBin_total s (of_decide_eq_true hr.1)
  | .varr vs =>
    rw [reprOK] at hr
    rw [Bool.and_eq_true_iff] at hr
    obtain ⟨body, hbody⟩ := packList_total vs hr.2
    obtain ⟨hdr, hhdr⟩ := arrHeader_total (ValueList.length vs) (of_decide_eq_true hr.1)
    exact ⟨hdr ++ body, by rw [packb, hhdr, hbody]⟩
  | .vmap kvs =>
    rw [reprOK] at hr
    rw [Bool.and_eq_true_iff, Bool.and_eq_true_iff] at hr
    obtain ⟨body, hbody⟩ := packMap_total kvs hr.2
    obtain ⟨hdr, hhdr⟩ := mapHeader_total (ValueMap.length kvs) (of_decide_eq_true hr.1.1)
    exact ⟨hdr ++ body, by rw [packb, hhdr, hbody]⟩

theorem packList_total (vs : ValueList) (hr : reprOKL vs = true) :
    ∃ bs, packList vs = some bs := by
  match vs with
  | .nil => exact ⟨_, rfl⟩
  | .cons v vs' =>
    rw [reprOKL, Bool.and_eq_true_iff] at hr
    obtain ⟨a, ha⟩ := packb_total v hr.1
    obtain ⟨b, hb⟩ := packList_total vs' hr.2
    exact ⟨a ++ b, by rw [packList, ha, hb]⟩

theorem packMap_total (kvs : ValueMap) (hr : reprOKM kvs = true) :
    ∃ bs, packMap kvs = some bs := by
  match kvs with
  | .mnil => exact ⟨_, rfl⟩
  | .mcons k v kvs' =>
    rw [reprOKM, Bool.and_eq_true_iff, Bool.and_eq_true_iff, Bool.and_eq_true_iff] at hr
    obtain ⟨a, ha⟩ := packStr_total k (of_decide_eq_true hr.1.1.1)
    obtain ⟨b, hb⟩ := packb_total v hr.1.2
    obtain ⟨c, hc⟩ := packMap_total kvs' hr.2
    exact ⟨a ++ b ++ c, by rw [packMap, ha, hb, hc]⟩

end

mutual

/-- The nesting depth never exceeds the byte length of the serialization. -/
theorem needFuel_le_packb (v : Value) (bs : List Nat) (h : packb v = some bs) :
    needFuel v ≤ bs.length := by
  match v with
  | .vnull => cases h; simp [needFuel]
  | .vbool true => cases h; simp [needFuel]
  | .vbool false => cases h; simp [needFuel]
  | .vfloat bits => cases h; simp [needFuel]
  | .vint n =>
    have := len_packInt n bs h
    simp only [needFuel]
    omega
  | .vstr s =>
    have := len_packStr s bs h
    simp only [needFuel]
    omega
  | .vbin s =>
    have := len_packBin s bs h
    simp only [needFuel]
    omega
  | .varr vs =>
    rw [packb] at h
    cases hhdr : arrHeader (ValueList.length vs) with
    | none => rw [hhdr] at h; cases hbody : packList vs <;> rw [hbody] at h <;> cases h
    | some hdr =>
      rw [hhdr] at h
      cases hbody : packList vs with
      | none => rw [hbody] at h; cases h
      | some body =>
        rw [hbody] at h
        cases h
        have h1 := len_arrHeader (ValueList.length vs) hdr hhdr
        have h2 := needFuelL_le_packList vs body hbody
        simp only [needFuel, List.length_append]
        omega
  | .vmap kvs =>
    rw [packb] at h
    cases hhdr : mapHeader (ValueMap.length kvs) with
    | none => rw [hhdr] at h; cases hbody : packMap kvs <;> rw [hbody] at h <;> cases h
    | some hdr =>
      rw [hhdr] at h
      cases hbody : packMap kvs with
      | none => rw [hbody] at h; cases h
      | some body =>
        rw [hbody] at h
        cases h
        have h1 := len_mapHeader (ValueMap.length kvs) hdr hhdr
        have h2 := needFuelM_le_packMap kvs body hbody
        simp only [needFuel, List.length_append]
        omega

theorem needFuelL_le_packList (vs : ValueList) (bs : List Nat)
    (h : packList vs = some bs) : needFuelL vs ≤ bs.length := by
  match vs with
  | .nil => cases h; simp [needFuelL]
  | .cons v vs' =>
    rw [packList] at h
    cases hpv : packb v with
    | none => rw [hpv] at h; cases hpl : packList vs' <;> rw [hpl] at h <;> cases h
    | some a =>
      rw [hpv] at h
      cases hpl : packList vs' with
      | none => rw [hpl] at h; cases h
      | some b =>
        rw [hpl] at h
        cases h
        have h1 := needFuel_le_packb v a hpv
        have h2 := needFuelL_le_packList vs' b hpl
        simp only [needFuelL, List.length_append]
        exact max_le (by omega) (by omega)

theorem needFuelM_le_packMap (kvs : ValueMap) (bs : List Nat)
    (h : packMap kvs = some bs) : needFuelM kvs ≤ bs.length := by
  match kvs with
  | .mnil => cases h; simp [needFuelM]
  | .mcons k v kvs' =>
    rw [packMap] at h
    cases hpk : packStr k with
    | none =>
      rw [hpk] at h
      cases hpv : packb v <;> rw [hpv] at h <;>
        [skip; cases hpc : packMap kvs' <;> rw [hpc] at h] <;> cases h
    | some a =>
      rw [hpk] at h
      cases hpv : packb v with
      | none => rw [hpv] at h; cases hpc : packMap kvs' <;> rw [hpc] at h <;> cases h
      | some b =>
        rw [hpv] at h
        cases hpc : packMap kvs' with
        | none => rw [hpc] at h; cases h
        | some c =>
          rw [hpc] at h
          cases h
          have h1 := needFuel_le_packb v b hpv
          have h2 := needFuelM_le_packMap kvs' c hpc
          simp only [needFuelM, List.length_append]
          exact max_le (by omega) (by omega)

end

/-- `unpackb` inverts `packb` on representable values. -/
theorem unpackb_packb (v : Value) (bs : List Nat) (h : packb v = some bs)
    (hr : reprOK v = true) : unpackb bs = some v := by
  unfold unpackb
  have h1 := unpackOne_packb v bs [] (bs.length + 1) h hr
    (by have := needFuel_le_packb v bs h; omega)
  rw [List.append_nil] at h1
  rw [h1]

/-- The observable outcome of `decode_value`: a returned value, a returned
Python `None`, or a raised exception. -/
inductive PyDecode where
  | val (v : Value)
  | pynone
  | error

/-- `encode_value` from `LightSQL/encoding.py`: bytes get the raw tag
`0x01`, anything else is msgpack-packed behind tag `0x02`; a packer error
propagates (`none`). -/
def encode_value (v : Value) : Option (List Nat) :=
  match v with
  | .vbin bs => some (1 :: bs)
  | v => (packb v).map (fun bs => 2 :: bs)

/-- `decode_value` from `LightSQL/encoding.py`: dispatch on the first byte,
returning the remaining bytes under tag `0x01`, the unpacked value under tag
`0x02`, and Python `None` for any other first byte or empty input. -/
def decode_value (buffer : List Nat) : PyDecode :=
  match buffer with
  | 1 :: rest => .val (.vbin rest)
  | 2 :: rest =>
    match unpackb rest with
    | some v => .val v
    | none => .error
  | _ => .pynone

theorem decode_encode_aux (v : Value) (hr : reprOK v = true)
    (he : encode_value v = (packb v).map (fun bs => 2 :: bs)) :
    ∃ bs, encode_value v = some bs ∧ decode_value bs = PyDecode.val v := by
  obtain ⟨body, hbody⟩ := packb_total v hr
  have hu := unpackb_packb v body hbody hr
  refine ⟨2 :: body, ?_, ?_⟩
  · rw [he, hbody]
    rfl
  · rw [decode_value, hu]

theorem encode_value_shape_aux (v : Value) (bs : List Nat)
    (h : (packb v).map (fun x => 2 :: x) = some bs) :
    ∃ body, packb v = some body ∧ bs = 2 :: body := by
  cases hp : packb v with
  | none => rw [hp] at h; cases h
  | some body => rw [hp] at h; cases h; exact ⟨body, rfl, rfl⟩

/-- Shape inversion for `encode_value`. -/
theorem encode_value_shape (v : Value) (bs : List Nat)
    (h : encode_value v = some bs) :
    (∃ s, v = .vbin s ∧ bs = 1 :: s) ∨
      (∃ body, packb v = some body ∧ bs = 2 :: body) := by
  match v with
  | .vbin s =>
    cases h
    exact Or.inl ⟨s, rfl, rfl⟩
  | .vnull => exact Or.inr (encode_value_shape_aux .vnull bs h)
  | .vbool b => exact Or.inr (encode_value_shape_aux (.vbool b) bs h)
  | .vint n => exact Or.inr (encode_value_shape_aux (.vint n) bs h)
  | .vfloat bits => exact Or.inr (encode_value_shape_aux (.vfloat bits) bs h)
  | .vstr s => exact Or.inr (encode_value_shape_aux (.vstr s) bs h)
  | .varr vs => exact Or.inr (encode_value_shape_aux (.varr vs) bs h)
  | .vmap kvs => exact Or.inr (encode_value_shape_aux (.vmap kvs) bs h)

/-- Decoding inverts encoding whenever encoding succeeded on a representable
value. -/
theorem decode_encode_value (v : Value) (bs : List Nat) (hr : reprOK v = true)
    (h : encode_value v = some bs) : decode_value bs = PyDecode.val v := by
  rcases encode_value_shape v bs h with ⟨s, rfl, rfl⟩ | ⟨body, hbody, rfl⟩
  · rfl
  · rw [decode_value, unpackb_packb v body hbody hr]

theorem codec_roundtrip_total (v : Value) (hr : reprOK v = true) :
    ∃ bs, encode_value v = some bs ∧ decode_value bs = PyDecode.val v := by
  match v with
  | .vbin s => exact ⟨1 :: s, rfl, rfl⟩
  | .vnull => exact decode_encode_aux .vnull hr rfl
  | .vbool b => exact decode_encode_aux (.vbool b) hr rfl
  | .vint n => exact decode_encode_aux (.vint n) hr rfl
  | .vfloat bits => exact decode_encode_aux (.vfloat bits) hr rfl
  | .vstr s => exact decode_encode_aux (.vstr s) hr rfl
  | .varr vs => exact decode_encode_aux (.varr vs) hr rfl
  | .vmap kvs => exact decode_encode_aux (.vmap kvs) hr rfl

/-- C1: for every representable value — every raw byte sequence and every
codec-representable structured value (integers, floats, strings, booleans,
null, sequences, string-keyed mappings, arbitrarily nested) — encoding
succeeds and decoding the encoding returns the value unchanged. -/
theorem claim_C1_codec_roundtrip (v : Value) (hr : reprOK v = true) :
    ∃ bs, encode_value v = some bs ∧ decode_value bs = PyDecode.val v :=
  codec_roundtrip_total v hr

/-- A nested sample: a list holding a string-keyed mapping, raw bytes, text,
a negative integer, a float bit pattern, a boolean, null, and a nested
list. -/
def sampleValue : Value :=
  .varr (.cons (.vmap (.mcons [120] (.vint 1) .mnil))
    (.cons (.vbin [0, 255])
      (.cons (.vstr [104, 105])
        (.cons (.vint (-5))
          (.cons (.vfloat 0x400C000000000000)
            (.cons (.vbool true)
              (.cons .vnull
                (.cons (.varr (.cons (.vint 300) .nil)) .nil))))))))

theorem claim_C1_codec_roundtrip_witness :
    reprOK sampleValue = true ∧
      ∃ bs, encode_value sampleValue = some bs ∧
        decode_value bs = PyDecode.val sampleValue :=
  ⟨by decide, claim_C1_codec_roundtrip sampleValue (by decide)⟩

/-- C6 counterexample: on an unrecognized tag byte (and on empty input) the
code returns Python `None` to the caller; it does not raise any
corruption-style error. -/
theorem claim_C6_counterexample :
    decode_value [0] = PyDecode.pynone ∧ decode_value [] = PyDecode.pynone ∧
      decode_value [0] ≠ PyDecode.error :=
  ⟨rfl, rfl, fun h => PyDecode.noConfusion h⟩

/-- C6 (amended): for every input whose first byte is neither the RAW tag
`0x01` nor the STRUCTURED tag `0x02`, and for the empty input, `decode_value`
returns Python `None` — absence, not a raised corruption error. -/
theorem claim_C6_decode_unknown_tag (buffer : List Nat)
    (h : buffer = [] ∨ ∃ b rest, buffer = b :: rest ∧ b ≠ 1 ∧ b ≠ 2) :
    decode_value buffer = PyDecode.pynone := by
  rcases h with rfl | ⟨b, rest, rfl, hb1, hb2⟩
  · rfl
  · match b, hb1, hb2 with
    | 0, _, _ => rfl
    | n + 3, _, _ => rfl

theorem claim_C6_decode_unknown_tag_witness :
    (([5, 9] : List Nat) = [] ∨
      ∃ b rest, ([5, 9] : List Nat) = b :: rest ∧ b ≠ 1 ∧ b ≠ 2) ∧
      decode_value [5, 9] = PyDecode.pynone :=
  ⟨Or.inr ⟨5, [9], rfl, by decide, by decide⟩,
    claim_C6_decode_unknown_tag [5, 9] (Or.inr ⟨5, [9], rfl, by decide, by decide⟩)⟩

/-- One row of the `FlashDB` table: `key TEXT PRIMARY KEY`, `value BLOB`,
`expires_at INTEGER` nullable. -/
structure Entry where
  key : String
  value : List Nat
  expires_at : Option Int
deriving DecidableEq

/-- The table contents, listed in b-tree (primary-key) scan order — the
order an unordered `SELECT` walks a `WITHOUT ROWID` table. -/
abbrev DBState := List Entry

/-- The SQL liveness filter `expires_at IS NULL OR expires_at > now` used by
`get`, `get_many` and `exists`. -/
def live (e : Entry) (now : Int) : Bool :=
  match e.expires_at with
  | none => true
  | some t => now < t

/-- The SQL filter `expires_at IS NOT NULL AND expires_at <= now` used by
`count_expired` and `cleanup`. -/
def expiredRow (e : Entry) (now : Int) : Bool :=
  match e.expires_at with
  | none => false
  | some t => t ≤ now

/-- `INSERT OR REPLACE`: place the row at its key's b-tree position, fully
replacing any row with the same key. -/
def upsert : DBState → Entry → DBState
  | [], e => [e]
  | x :: xs, e =>
    if e.key < x.key then e :: x :: xs
    else if e.key = x.key then e :: xs
    else x :: upsert xs e

/-- Unique-key invariant of a primary-key table. -/
def nodupKeys (s : DBState) : Prop := (s.map Entry.key).Nodup

/-- ASCII lowering, the case folding SQLite's default `LIKE` applies. -/
def lowerAscii (c : Char) : Char :=
  if 'A' ≤ c ∧ c ≤ 'Z' then Char.ofNat (c.toNat + 32) else c

/-- SQL `LIKE`: `%` matches any run, `_` exactly one character, other
characters match ASCII-case-insensitively (SQLite's default). -/
def likeMatch : List Char → List Char → Bool
  | [], [] => true
  | '%' :: ps, cs =>
    likeMatch ps cs ||
      (match cs with
       | [] => false
       | _ :: cs2 => likeMatch ('%' :: ps) cs2)
  | '_' :: ps, _ :: cs => likeMatch ps cs
  | p :: ps, c :: cs => (lowerAscii p == lowerAscii c) && likeMatch ps cs
  | _, _ => false
termination_by ps cs => (cs.length, ps.length)

/-- SQLite `LIMIT lim OFFSET off` on a row sequence: a negative offset acts
as zero, a negative limit means unlimited. -/
def sqlWindow (rows : List String) (lim off : Int) : List String :=
  let dropped := rows.drop (if off < 0 then 0 else off.toNat)
  if lim < 0 then dropped else dropped.take lim.toNat

/-- Python truthiness of the decoded value, as tested by `pop`'s
`if value:`. -/
def pyTruthy : Value → Bool
  | .vnull => false
  | .vbool b => b
  | .vint n => decide (n ≠ 0)
  | .vfloat bits => !(bits == 0 || bits == 0x8000000000000000)
  | .vstr s => !s.isEmpty
  | .vbin bs => !bs.isEmpty
  | .varr .nil => false
  | .varr (.cons _ _) => true
  | .vmap .mnil => false
  | .vmap (.mcons _ _ _) => true

/-- Python `dict` insertion on an association list: replace in place or
append. -/
def dictInsert (d : List (String × PyDecode)) (k : String) (v : PyDecode) :
    List (String × PyDecode) :=
  if d.any (fun p => p.1 == k) then
    d.map (fun p => if p.1 == k then (k, v) else p)
  else d ++ [(k, v)]

/-- Python `dict.update` from an association list of rows. -/
def dictUpdate (d new : List (String × PyDecode)) : List (String × PyDecode) :=
  new.foldl (fun acc p => dictInsert acc p.1 p.2) d

/-- `range(0, len(keys), batch_size)` slicing used by `get_many`. -/
def chunksOf (n : Nat) (xs : List String) : List (List String) :=
  if h : xs = [] ∨ n = 0 then [] else xs.take n :: chunksOf n (xs.drop n)
termination_by xs.length
decreasing_by
  simp_wf
  push_neg at h
  exact ⟨List.length_pos.mpr h.1, Nat.pos_of_ne_zero h.2⟩

/-- The Python conditional `(now + ttl) if ttl else None`: a TTL is applied
only when truthy, i.e. neither `None` nor `0`. -/
def expOf (now : Int) (ttl : Option Int) : Option Int :=
  match ttl with
  | some t => if t = 0 then none else some (now + t)
  | none => none

/-- `Client.set`: computes `expires_at = now + ttl` when `ttl` is truthy,
encodes the value (an encoding error propagates before any write), and
upserts the row. -/
def Client.set (s : DBState) (k : String) (v : Value) (ttl : Option Int)
    (now : Int) : Option DBState :=
  (encode_value v).map (fun enc => upsert s ⟨k, enc, expOf now ttl⟩)

/-- One row of `set_many`'s parameter list. -/
def setRow (now : Int) (it : String × Value × Option Int) : Option Entry :=
  (encode_value it.2.1).map (fun enc => ⟨it.1, enc, expOf now it.2.2⟩)

/-- `Client.set_many`: one shared `now`, all rows encoded before the batch
statement runs (so an encoding error writes nothing), then upserted in
order. -/
def Client.set_many (s : DBState) (items : List (String × Value × Option Int))
    (now : Int) : Option DBState :=
  (items.mapM (setRow now)).map (fun rows => rows.foldl upsert s)

/-- `Client.get`: `SELECT value WHERE key = ? AND live LIMIT 1`, decoded;
`None` when no row qualifies. -/
def Client.get (s : DBState) (k : String) (now : Int) : PyDecode × DBState :=
  (match s.find? (fun e => e.key == k && live e now) with
   | some e => decode_value e.value
   | none => .pynone, s)

/-- One batch of `get_many`: the rows of
`SELECT key, value WHERE key IN (chunk) AND live`, each decoded. -/
def rowsOf (s : DBState) (chunk : List String) (now : Int) :
    List (String × PyDecode) :=
  (s.filter (fun e => chunk.contains e.key && live e now)).map
    (fun e => (e.key, decode_value e.value))

/-- `Client.get_many`: batches of 1000 keys, each batch's rows merged into
one dict with `result.update(...)`. -/
def Client.get_many (s : DBState) (ks : List String) (now : Int) :
    List (String × PyDecode) × DBState :=
  ((chunksOf 1000 ks).foldl
    (fun acc chunk => dictUpdate acc (rowsOf s chunk now)) [], s)

/-- `Client.delete`: `DELETE WHERE key = ?`. -/
def Client.delete (s : DBState) (k : String) : DBState :=
  s.filter (fun e => !(e.key == k))

/-- `Client.get_expire`: the raw `expires_at` with no liveness filter. -/
def Client.get_expire (s : DBState) (k : String) : Option Int × DBState :=
  (match s.find? (fun e => e.key == k) with
   | some e => e.expires_at
   | none => none, s)

/-- `Client.keys`: `SELECT key WHERE key LIKE ?` — note: no expiry
filtering. -/
def Client.keys (s : DBState) (pattern : String) : List String × DBState :=
  ((s.filter (fun e => likeMatch pattern.data e.key.data)).map
    (fun e => e.key), s)

/-- `Client.paginate`: the `keys` query windowed by
`LIMIT page_size OFFSET (page - 1) * page_size`. -/
def Client.paginate (s : DBState) (pattern : String) (page page_size : Int) :
    List String × DBState :=
  (sqlWindow
    ((s.filter (fun e => likeMatch pattern.data e.key.data)).map
      (fun e => e.key))
    page_size ((page - 1) * page_size), s)

/-- `Client.count`: raw `COUNT(*)`, expired rows included. -/
def Client.count (s : DBState) : Nat × DBState := (s.length, s)

/-- `Client.count_expired`: rows whose `expires_at` has passed. -/
def Client.count_expired (s : DBState) (now : Int) : Nat × DBState :=
  ((s.filter (fun e => expiredRow e now)).length, s)

/-- `Client.cleanup`: `DELETE WHERE expires_at IS NOT NULL AND
expires_at <= now`. -/
def Client.cleanup (s : DBState) (now : Int) : DBState :=
  s.filter (fun e => !expiredRow e now)

/-- `Client.exists`: liveness-filtered `SELECT EXISTS`. -/
def Client.exists_ (s : DBState) (k : String) (now : Int) : Bool × DBState :=
  (s.any (fun e => e.key == k && live e now), s)

/-- `Client.pop`: `value = get(key)`, then `delete(key)` only when `value`
is truthy; a decode error propagates before the delete. -/
def Client.pop (s : DBState) (k : String) (now : Int) : PyDecode × DBState :=
  match (Client.get s k now).1 with
  | .val v => if pyTruthy v then (.val v, Client.delete s k) else (.val v, s)
  | .pynone => (.pynone, s)
  | .error => (.error, s)

/-- Encoding succeeds on every representable value. -/
theorem encode_value_total (v : Value) (hr : reprOK v = true) :
    ∃ bs, encode_value v = some bs := by
  obtain ⟨bs, h1, _⟩ := codec_roundtrip_total v hr
  exact ⟨bs, h1⟩

/-- Strict key-ordering of the b-tree scan. -/
def sortedKeys (s : DBState) : Prop := List.Pairwise (fun a b => a.key < b.key) s

theorem find?_upsert_key (s : DBState) (e : Entry) (k : String)
    (hk : e.key = k) :
    (upsert s e).find? (fun x => x.key == k) = some e := by
  induction s with
  | nil => simp [upsert, List.find?, hk]
  | cons x xs ih =>
    rw [upsert]
    by_cases h1 : e.key < x.key
    · rw [if_pos h1]
      simp [List.find?, hk]
    · rw [if_neg h1]
      by_cases h2 : e.key = x.key
      · rw [if_pos h2]
        simp [List.find?, hk]
      · rw [if_neg h2]
        have hx : (x.key == k) = false := by
          simp only [beq_eq_false_iff_ne]
          rw [← hk]
          exact fun hh => h2 hh.symm
        simp only [List.find?, hx]
        exact ih

theorem find?_upsert_live (s : DBState) (e : Entry) (q : Entry → Bool)
    (hq : q e = true) (k : String) (hk : e.key = k) :
    (upsert s e).find? (fun x => x.key == k && q x) = some e := by
  induction s with
  | nil => simp [upsert, List.find?, hk, hq]
  | cons x xs ih =>
    rw [upsert]
    by_cases h1 : e.key < x.key
    · rw [if_pos h1]
      simp [List.find?, hk, hq]
    · rw [if_neg h1]
      by_cases h2 : e.key = x.key
      · rw [if_pos h2]
        simp [List.find?, hk, hq]
      · rw [if_neg h2]
        have hx : (x.key == k && q x) = false := by
          rw [Bool.and_eq_false_iff]
          left
          simp only [beq_eq_false_iff_ne]
          rw [← hk]
          exact fun hh => h2 hh.symm
        simp only [List.find?, hx]
        exact ih

theorem find?_upsert_preserved (s : DBState) (e : Entry) (k : String)
    (hk : e.key ≠ k) :
    (upsert s e).find? (fun x => x.key == k) = s.find? (fun x => x.key == k) := by
  have he : (e.key == k) = false := by simp [hk]
  induction s with
  | nil => simp [upsert, List.find?, he]
  | cons x xs ih =>
    rw [upsert]
    by_cases h1 : e.key < x.key
    · rw [if_pos h1]
      simp only [List.find?, he]
    · rw [if_neg h1]
      by_cases h2 : e.key = x.key
      · rw [if_pos h2]
        have hx : (x.key == k) = false := by
          simp only [beq_eq_false_iff_ne]
          rw [← h2]
          exact hk
        simp only [List.find?, he, hx]
      · rw [if_neg h2]
        cases hx : (x.key == k) with
        | true => simp only [List.find?, hx]
        | false =>
          simp only [List.find?, hx]
          exact ih

/-- In a key-sorted table, the only row of the upserted key is the upserted
row. -/
theorem key_mem_upsert (s : DBState) (e : Entry) (hs : sortedKeys s)
    (x : Entry) (hx : x ∈ upsert s e) (hk : x.key = e.key) : x = e := by
  induction s with
  | nil =>
    rw [upsert] at hx
    simpa using hx
  | cons y ys ih =>
    rw [sortedKeys, List.pairwise_cons] at hs
    rw [upsert] at hx
    by_cases h1 : e.key < y.key
    · rw [if_pos h1] at hx
      rcases List.mem_cons.mp hx with rfl | hx2
      · rfl
      · rcases List.mem_cons.mp hx2 with rfl | hx3
        · exact absurd (hk ▸ h1) (lt_irrefl _)
        · have := hs.1 x hx3
          rw [hk] at this
          exact absurd (this.trans h1) (lt_irrefl _)
    · rw [if_neg h1] at hx
      by_cases h2 : e.key = y.key
      · rw [if_pos h2] at hx
        rcases List.mem_cons.mp hx with rfl | hx2
        · rfl
        · have := hs.1 x hx2
          rw [hk, h2] at this
          exact absurd this (lt_irrefl _)
      · rw [if_neg h2] at hx
        rcases List.mem_cons.mp hx with rfl | hx2
        · exact absurd hk.symm h2
        · exact ih hs.2 hx2

/-- C2 (amended to nonnegative TTLs): writing a key with TTL `t ≥ 0` makes
an immediate read return the value; and when `t > 0`, once the current time
passes the stored expiry `now + t`, `get` returns absent and `exists` is
false, with no cleanup in between. -/
theorem claim_C2_set_get_ttl (s : DBState) (k : String) (v : Value)
    (t now nowLater : Int) (hs : sortedKeys s) (hr : reprOK v = true)
    (ht : 0 ≤ t) :
    ∃ s', Client.set s k v (some t) now = some s' ∧
      (Client.get s' k now).1 = PyDecode.val v ∧
      (0 < t → now + t < nowLater →
        (Client.get s' k nowLater).1 = PyDecode.pynone ∧
        (Client.exists_ s' k nowLater).1 = false) := by
  obtain ⟨enc, henc⟩ := encode_value_total v hr
  refine ⟨upsert s ⟨k, enc, if t = 0 then none else some (now + t)⟩, ?_, ?_, ?_⟩
  · rw [Client.set, henc]
    rfl
  · have hlive : live ⟨k, enc, if t = 0 then none else some (now + t)⟩ now = true := by
      by_cases h0 : t = 0
      · simp [live, h0]
      · simp only [live, if_neg h0]
        simp only [decide_eq_true_eq]
        omega
    rw [Client.get]
    simp only
    rw [find?_upsert_live s _ (fun x => live x now) hlive k rfl]
    exact decode_encode_value v enc hr henc
  · intro htpos hlater
    have hdead : ∀ x ∈ upsert s ⟨k, enc, if t = 0 then none else some (now + t)⟩,
        ¬(x.key == k && live x nowLater) = true := by
      intro x hx
      by_cases hxk : x.key = k
      · have hxe := key_mem_upsert s _ hs x hx hxk
        subst hxe
        simp only [live, if_neg (by omega : ¬t = 0)]
        simp only [Bool.and_eq_true, decide_eq_true_eq]
        rintro ⟨-, h⟩
        omega
      · simp [hxk]
    constructor
    · rw [Client.get]
      simp only
      rw [List.find?_eq_none.mpr hdead]
    · rw [Client.exists_]
      simp only
      rw [List.any_eq_false.mpr hdead]

theorem claim_C2_set_get_ttl_witness :
    sortedKeys [] ∧ reprOK (Value.vbin [5]) = true ∧ (0 : Int) ≤ 3 ∧
      (∃ s', Client.set [] "a" (Value.vbin [5]) (some 3) 10 = some s' ∧
        (Client.get s' "a" 10).1 = PyDecode.val (Value.vbin [5]) ∧
        ((0 : Int) < 3 → (10 : Int) + 3 < 20 →
          (Client.get s' "a" 20).1 = PyDecode.pynone ∧
          (Client.exists_ s' "a" 20).1 = false)) :=
  ⟨List.Pairwise.nil, by decide, by decide,
    claim_C2_set_get_ttl [] "a" (Value.vbin [5]) 3 10 20 List.Pairwise.nil
      (by decide) (by decide)⟩

/-- C2 counterexample: with the negative TTL `-1`, an immediate read already
returns absent, so the claim fails when quantified over all TTL values. -/
theorem claim_C2_counterexample :
    Client.set [] "a" (Value.vbin []) (some (-1)) 10 =
      some [⟨"a", [1], some 9⟩] ∧
    (Client.get [⟨"a", [1], some 9⟩] "a" 10).1 = PyDecode.pynone := by
  constructor
  · rfl
  · rfl

theorem setRow_some (now : Int) (it : String × Value × Option Int) (e : Entry)
    (h : setRow now it = some e) :
    ∃ enc, encode_value it.2.1 = some enc ∧ e = ⟨it.1, enc, expOf now it.2.2⟩ := by
  unfold setRow at h
  cases henc : encode_value it.2.1 with
  | none => rw [henc] at h; cases h
  | some enc => rw [henc] at h; cases h; exact ⟨enc, rfl, rfl⟩

theorem mapM_setRow_keys (now : Int) (items : List (String × Value × Option Int))
    (rows : List Entry) (h : items.mapM (setRow now) = some rows) :
    rows.map Entry.key = items.map (fun it => it.1) := by
  induction items generalizing rows with
  | nil =>
    rw [List.mapM_nil] at h
    cases h
    rfl
  | cons it its ih =>
    rw [List.mapM_cons] at h
    cases hr : setRow now it with
    | none => rw [hr] at h; cases h
    | some e =>
      rw [hr] at h
      cases hrs : List.mapM (setRow now) its with
      | none => rw [hrs] at h; cases h
      | some es =>
        rw [hrs] at h
        cases h
        obtain ⟨enc, -, rfl⟩ := setRow_some now it e hr
        simp only [List.map_cons]
        rw [ih es hrs]

theorem find?_foldl_upsert_untouched (rows : List Entry) (s : DBState)
    (k : String) (hk : ∀ r ∈ rows, r.key ≠ k) :
    (rows.foldl upsert s).find? (fun x => x.key == k) =
      s.find? (fun x => x.key == k) := by
  induction rows generalizing s with
  | nil => rfl
  | cons r rest ih =>
    rw [List.foldl_cons]
    rw [ih (upsert s r) (fun r2 h2 => hk r2 (List.mem_cons_of_mem r h2))]
    exact find?_upsert_preserved s r k (hk r (List.mem_cons_self r rest))

theorem get_expire_foldl (now : Int) (items : List (String × Value × Option Int))
    (rows : List Entry) (s : DBState)
    (hnd : (items.map (fun p => p.1)).Nodup)
    (hrows : items.mapM (setRow now) = some rows) :
    ∀ it ∈ items, ∃ enc,
      (rows.foldl upsert s).find? (fun x => x.key == it.1) =
        some ⟨it.1, enc, expOf now it.2.2⟩ := by
  induction items generalizing rows s with
  | nil => intro it hmem; cases hmem
  | cons jt its ih =>
    intro it hmem
    rw [List.mapM_cons] at hrows
    cases hr : setRow now jt with
    | none => rw [hr] at hrows; cases hrows
    | some e =>
      rw [hr] at hrows
      cases hrs : List.mapM (setRow now) its with
      | none => rw [hrs] at hrows; cases hrows
      | some es =>
        rw [hrs] at hrows
        cases hrows
        obtain ⟨enc, -, rfl⟩ := setRow_some now jt e hr
        rw [List.map_cons, List.nodup_cons] at hnd
        rw [List.foldl_cons]
        rcases List.mem_cons.mp hmem with rfl | hmem2
        · refine ⟨enc, ?_⟩
          rw [find?_foldl_upsert_untouched es _ it.1 ?_]
          · exact find?_upsert_key s _ it.1 rfl
          · intro r2 h2 hkey
            apply hnd.1
            rw [← mapM_setRow_keys now its es hrs, ← hkey]
            exact List.mem_map_of_mem Entry.key h2
        · exact ih es (upsert s ⟨jt.1, enc, expOf now jt.2.2⟩) hnd.2 hrs it hmem2

/-- C5 (amended to nonzero TTLs): `set` with a nonzero TTL `t` stores the
absolute expiry `now + t`; the stored expiry is absent when no TTL is given
or when the given TTL is `0` (Python's `if ttl` treats `0` like `None`);
`set_many` does the same per entry with one shared `now`. -/
theorem claim_C5_expiry_stored (s : DBState) (k : String) (v : Value)
    (t now : Int) :
    (∀ s', t ≠ 0 → Client.set s k v (some t) now = some s' →
      (Client.get_expire s' k).1 = some (now + t)) ∧
    (∀ s', Client.set s k v (some 0) now = some s' →
      (Client.get_expire s' k).1 = none) ∧
    (∀ s', Client.set s k v none now = some s' →
      (Client.get_expire s' k).1 = none) ∧
    (∀ (items : List (String × Value × Option Int)) s',
      (items.map (fun p => p.1)).Nodup →
      Client.set_many s items now = some s' →
      ∀ it ∈ items, (Client.get_expire s' it.1).1 = expOf now it.2.2) := by
  refine ⟨?_, ?_, ?_, ?_⟩
  · intro s' ht h
    rw [Client.set] at h
    cases henc : encode_value v with
    | none => rw [henc] at h; cases h
    | some enc =>
      rw [henc] at h
      cases h
      rw [Client.get_expire]
      simp only
      rw [find?_upsert_key s _ k rfl]
      simp [expOf, ht]
  · intro s' h
    rw [Client.set] at h
    cases henc : encode_value v with
    | none => rw [henc] at h; cases h
    | some enc =>
      rw [henc] at h
      cases h
      rw [Client.get_expire]
      simp only
      rw [find?_upsert_key s _ k rfl]
      rfl
  · intro s' h
    rw [Client.set] at h
    cases henc : encode_value v with
    | none => rw [henc] at h; cases h
    | some enc =>
      rw [henc] at h
      cases h
      rw [Client.get_expire]
      simp only
      rw [find?_upsert_key s _ k rfl]
      rfl
  · intro items s' hnd h it hmem
    rw [Client.set_many] at h
    cases hrows : items.mapM (setRow now) with
    | none => rw [hrows] at h; cases h
    | some rows =>
      rw [hrows] at h
      cases h
      obtain ⟨enc, hfind⟩ := get_expire_foldl now items rows s hnd hrows it hmem
      rw [Client.get_expire]
      simp only
      rw [hfind]

theorem claim_C5_expiry_stored_witness :
    ((3 : Int) ≠ 0 ∧
      Client.set [] "a" (Value.vbin [7]) (some 3) 100 =
        some [⟨"a", [1, 7], some 103⟩] ∧
      (Client.get_expire [⟨"a", [1, 7], some 103⟩] "a").1 = some 103) :=
  ⟨by decide, rfl,
    (claim_C5_expiry_stored [] "a" (Value.vbin [7]) 3 100).1
      [⟨"a", [1, 7], some 103⟩] (by decide) rfl⟩

/-- C5 counterexample: with the explicitly given TTL `0` the code stores no
expiry at all (`expires_at` is `NULL`), not the claimed `now + 0`. -/
theorem claim_C5_counterexample :
    Client.set [] "k" (Value.vbin []) (some 0) 7 = some [⟨"k", [1], none⟩] ∧
    (Client.get_expire [⟨"k", [1], none⟩] "k").1 = none := ⟨rfl, rfl⟩

/-- C3 failing input: the key `"k"` holds the encoded integer `0`, a falsy
value. `pop` returns the value, yet because of `if value:` it does not
delete the row — the key still exists afterwards, contradicting both the
claim and `pop`'s own docstring ("retrieves and removes"). -/
theorem claim_C3_pop_falsy_not_deleted :
    (Client.pop [⟨"k", [2, 0], none⟩] "k" 5).1 = PyDecode.val (Value.vint 0) ∧
    (Client.pop [⟨"k", [2, 0], none⟩] "k" 5).2 = [⟨"k", [2, 0], none⟩] ∧
    (Client.exists_ [⟨"k", [2, 0], none⟩] "k" 5).1 = true := by
  have hget : (Client.get [⟨"k", [2, 0], none⟩] "k" 5).1 =
      PyDecode.val (Value.vint 0) := by
    simp [Client.get, List.find?, live, decode_value, unpackb, unpackOne]
  refine ⟨?_, ?_, by decide⟩
  · rw [Client.pop, hget]
    rfl
  · rw [Client.pop, hget]
    rfl

/-- C4 failing input: a row whose `expires_at` (5) is before the current
time (10) is semantically absent — `exists` is false — yet `keys` returns
it, because the `SELECT key ... LIKE` query has no expiry filter and no
sweep runs on this path. -/
theorem claim_C4_keys_returns_expired :
    (Client.keys [⟨"a", [1], some 5⟩] "%").1 = ["a"] ∧
    expiredRow ⟨"a", [1], some 5⟩ 10 = true ∧
    (Client.exists_ [⟨"a", [1], some 5⟩] "a" 10).1 = false := by
  refine ⟨?_, by decide, by decide⟩
  simp [Client.keys, likeMatch, String.data]

/-- C9: cleanup is idempotent at a fixed observation time, and immediately
after a cleanup no expired rows remain to be counted. -/
theorem claim_C9_cleanup_idempotent (s : DBState) (now : Int) :
    Client.cleanup (Client.cleanup s now) now = Client.cleanup s now ∧
    (Client.count_expired (Client.cleanup s now) now).1 = 0 := by
  constructor
  · simp [Client.cleanup, List.filter_filter]
  · simp [Client.cleanup, Client.count_expired, List.filter_filter]

/-- C10: every read-only operation — get, get_many, exists, keys, paginate,
count, count_expired, get_expire — returns the table unchanged: the read
path runs only SELECT statements, so no expiration sweep happens there. -/
theorem claim_C10_reads_pure (s : DBState) (k : String) (ks : List String)
    (pattern : String) (page psize now : Int) :
    (Client.get s k now).2 = s ∧ (Client.get_many s ks now).2 = s ∧
    (Client.exists_ s k now).2 = s ∧ (Client.keys s pattern).2 = s ∧
    (Client.paginate s pattern page psize).2 = s ∧
    (Client.count s).2 = s ∧ (Client.count_expired s now).2 = s ∧
    (Client.get_expire s k).2 = s :=
  ⟨rfl, rfl, rfl, rfl, rfl, rfl, rfl, rfl⟩

theorem join_take_drop (k : Nat) (hk : 0 < k) :
    ∀ (P : Nat) (l : List String), l.length ≤ P * k →
      ((List.range P).map (fun i => (l.drop (i * k)).take k)).flatten = l := by
  intro P
  induction P with
  | zero =>
    intro l hl
    have hnil : l = [] := List.eq_nil_of_length_eq_zero (by simpa using hl)
    subst hnil
    rfl
  | succ P ih =>
    intro l hl
    rw [List.range_succ_eq_map]
    rw [List.map_cons, List.flatten_cons, List.map_map]
    have h0 : (l.drop (0 * k)).take k = l.take k := by
      rw [Nat.zero_mul, List.drop_zero]
    rw [h0]
    have hfun : ((fun i => (l.drop (i * k)).take k) ∘ Nat.succ) =
        fun i => (((l.drop k).drop (i * k))).take k := by
      funext i
      simp only [Function.comp]
      rw [List.drop_drop]
      congr 2
      rw [Nat.succ_mul]
      omega
    rw [hfun]
    rw [ih (l.drop k) (by rw [List.length_drop]; rw [Nat.succ_mul] at hl; omega)]
    exact List.take_append_drop k l

/-- C7: with a positive page size and no intervening writes, concatenating
`paginate` over pages 1, 2, … covers exactly the result of one `keys` call,
in order, with no duplicates and no gaps; both walk the same table scan, so
the ordering is deterministic on the same data. -/
theorem claim_C7_paginate_concat (s : DBState) (pattern : String) (n P : Nat)
    (hn : 0 < n)
    (hcov : ((Client.keys s pattern).1).length ≤ P * n) :
    ((List.range P).map
      (fun (i : Nat) =>
        (Client.paginate s pattern ((i : Int) + 1) (n : Int)).1)).flatten =
      (Client.keys s pattern).1 := by
  have hpage : ∀ i : Nat,
      (Client.paginate s pattern ((i : Int) + 1) (n : Int)).1 =
        (((Client.keys s pattern).1).drop (i * n)).take n := by
    intro i
    have hoff : (((i : Int) + 1 - 1) * (n : Int)) = ((i * n : Nat) : Int) := by
      push_cast
      ring
    simp only [Client.paginate, Client.keys, hoff, sqlWindow]
    rw [if_neg (by omega : ¬((i * n : Nat) : Int) < 0),
      if_neg (by omega : ¬(n : Int) < 0)]
    rw [Int.toNat_natCast, Int.toNat_natCast]
  have hmapeq :
      (fun i : Nat => (Client.paginate s pattern ((i : Int) + 1) (n : Int)).1) =
        fun i : Nat => (((Client.keys s pattern).1).drop (i * n)).take n :=
    funext hpage
  rw [hmapeq]
  exact join_take_drop n hn P (Client.keys s pattern).1 hcov

theorem claim_C7_paginate_concat_witness :
    0 < 2 ∧
      ((Client.keys [⟨"a", [1], none⟩, ⟨"b", [1], none⟩, ⟨"c", [1], none⟩]
          "%").1).length ≤ 2 * 2 ∧
      ((List.range 2).map
        (fun (i : Nat) => (Client.paginate
          [⟨"a", [1], none⟩, ⟨"b", [1], none⟩, ⟨"c", [1], none⟩]
          "%" ((i : Int) + 1) (2 : Int)).1)).flatten =
        (Client.keys [⟨"a", [1], none⟩, ⟨"b", [1], none⟩, ⟨"c", [1], none⟩]
          "%").1 :=
  ⟨by decide,
    by simp [Client.keys, likeMatch, String.data],
    claim_C7_paginate_concat
      [⟨"a", [1], none⟩, ⟨"b", [1], none⟩, ⟨"c", [1], none⟩] "%" 2 2
      (by decide) (by simp [Client.keys, likeMatch, String.data])⟩

theorem lookup_append_pairs {α : Type} (l1 l2 : List (String × α)) (k : String) :
    List.lookup k (l1 ++ l2) =
      (match List.lookup k l1 with
       | some v => some v
       | none => List.lookup k l2) := by
  induction l1 with
  | nil => rfl
  | cons p rest ih =>
    rw [List.cons_append, List.lookup_cons, List.lookup_cons]
    cases hpk : (k == p.1) with
    | true => rfl
    | false => exact ih

theorem lookup_none_of_not_mem {α : Type} (l : List (String × α)) (k : String)
    (h : ∀ p ∈ l, p.1 ≠ k) : List.lookup k l = none := by
  induction l with
  | nil => rfl
  | cons p rest ih =>
    rw [List.lookup_cons]
    have hpk : (k == p.1) = false := by
      simp only [beq_eq_false_iff_ne]
      exact fun hh => h p (List.mem_cons_self p rest) hh.symm
    rw [hpk]
    exact ih (fun q hq => h q (List.mem_cons_of_mem p hq))

theorem lookup_mapReplace_ne (d : List (String × PyDecode)) (k k' : String)
    (v : PyDecode) (hk : k ≠ k') :
    List.lookup k (d.map (fun p => if p.1 == k' then (k', v) else p)) =
      List.lookup k d := by
  induction d with
  | nil => rfl
  | cons p rest ih =>
    rw [List.map_cons, List.lookup_cons]
    by_cases hp : (p.1 == k') = true
    · rw [if_pos hp]
      have h1 : (k == k') = false := by simp [hk]
      have h2 : (k == p.1) = false := by
        simp only [beq_eq_false_iff_ne]
        intro hh
        rw [hh] at hk
        exact hk (by simpa using hp)
      rw [h1, List.lookup_cons, h2]
      exact ih
    · rw [if_neg hp, List.lookup_cons]
      cases hkp : (k == p.1) with
      | true => rfl
      | false => exact ih

theorem lookup_mapReplace_eq (d : List (String × PyDecode)) (k' : String)
    (v : PyDecode) (hin : d.any (fun p => p.1 == k') = true) :
    List.lookup k' (d.map (fun p => if p.1 == k' then (k', v) else p)) =
      some v := by
  induction d with
  | nil => simp at hin
  | cons p rest ih =>
    rw [List.map_cons]
    by_cases hp : (p.1 == k') = true
    · rw [if_pos hp, List.lookup_cons]
      simp
    · rw [if_neg hp, List.lookup_cons]
      have hkp : (k' == p.1) = false := by
        simp only [beq_eq_false_iff_ne]
        intro hh
        exact absurd (by simp [hh]) hp
      rw [hkp]
      apply ih
      rw [List.any_cons] at hin
      simpa [hp] using hin

/-- Characterization of a single Python dict insertion. -/
theorem lookup_dictInsert (d : List (String × PyDecode)) (k k' : String)
    (v : PyDecode) :
    List.lookup k (dictInsert d k' v) =
      if k = k' then some v else List.lookup k d := by
  rw [dictInsert]
  by_cases hany : d.any (fun p => p.1 == k') = true
  · rw [if_pos hany]
    by_cases hk : k = k'
    · rw [if_pos hk, hk]
      exact lookup_mapReplace_eq d k' v hany
    · rw [if_neg hk]
      exact lookup_mapReplace_ne d k k' v hk
  · rw [if_neg hany]
    rw [lookup_append_pairs]
    by_cases hk : k = k'
    · rw [if_pos hk]
      have hnone : List.lookup k d = none := by
        apply lookup_none_of_not_mem
        intro p hp hpk
        apply hany
        rw [List.any_eq_true]
        exact ⟨p, hp, by simp [hpk, hk]⟩
      rw [hnone]
      simp [List.lookup_cons, hk]
    · rw [if_neg hk]
      cases hd : List.lookup k d with
      | some w => rfl
      | none =>
        have hbeq : (k == k') = false := by simp [hk]
        simp [List.lookup_cons, hbeq]

/-- Characterization of `dict.update` from rows with pairwise-distinct
keys. -/
theorem lookup_dictUpdate (new : List (String × PyDecode)) :
    ∀ (d : List (String × PyDecode)) (k : String),
      (new.map Prod.fst).Nodup →
      List.lookup k (dictUpdate d new) =
        (match List.lookup k new with
         | some v => some v
         | none => List.lookup k d) := by
  induction new with
  | nil => intro d k _; rfl
  | cons p rest ih =>
    intro d k hnd
    rw [List.map_cons, List.nodup_cons] at hnd
    rw [dictUpdate, List.foldl_cons]
    have hstep : List.lookup k (dictUpdate (dictInsert d p.1 p.2) rest) =
        (match List.lookup k rest with
         | some v => some v
         | none => List.lookup k (dictInsert d p.1 p.2)) :=
      ih (dictInsert d p.1 p.2) k hnd.2
    rw [dictUpdate] at hstep
    rw [hstep, lookup_dictInsert, List.lookup_cons]
    by_cases hk : k = p.1
    · have hrest : List.lookup k rest = none := by
        apply lookup_none_of_not_mem
        intro q hq hqk
        apply hnd.1
        have hqp : q.1 = p.1 := by rw [hqk, hk]
        rw [← hqp]
        exact List.mem_map_of_mem Prod.fst hq
      rw [hrest, if_pos hk]
      have hbeq : (k == p.1) = true := by simp [hk]
      rw [hbeq]
    · have hbeq : (k == p.1) = false := by simp [hk]
      rw [hbeq, if_neg hk]

/-- The decoded value of the live row of a key, when one exists. -/
def liveRowVal (s : DBState) (k : String) (now : Int) : Option PyDecode :=
  (s.find? (fun e => e.key == k && live e now)).map
    (fun e => decode_value e.value)

theorem rowsOf_keys_nodup (s : DBState) (chunk : List String) (now : Int)
    (hnd : nodupKeys s) : ((rowsOf s chunk now).map Prod.fst).Nodup := by
  rw [rowsOf, List.map_map]
  have hsub : (s.filter
        (fun e => chunk.contains e.key && live e now)).map
        (Prod.fst ∘ fun e => (e.key, decode_value e.value)) =
      (s.filter (fun e => chunk.contains e.key && live e now)).map Entry.key := by
    rfl
  rw [hsub]
  exact List.Nodup.sublist (List.Sublist.map Entry.key (List.filter_sublist s)) hnd

theorem eq_of_mem_nodupKeys (s : DBState) (hnd : nodupKeys s) (e e' : Entry)
    (he : e ∈ s) (he' : e' ∈ s) (hk : e.key = e'.key) : e = e' := by
  induction s with
  | nil => cases he
  | cons x xs ih =>
    rw [nodupKeys, List.map_cons, List.nodup_cons] at hnd
    rcases List.mem_cons.mp he with rfl | he2
    · rcases List.mem_cons.mp he' with rfl | he2'
      · rfl
      · exact absurd (hk ▸ List.mem_map_of_mem Entry.key he2') hnd.1
    · rcases List.mem_cons.mp he' with rfl | he2'
      · exact absurd (hk ▸ List.mem_map_of_mem Entry.key he2) hnd.1
      · exact ih hnd.2 he2 he2'

theorem lookup_rowsOf (s : DBState) (now : Int) (chunk : List String)
    (k : String) (hnd : nodupKeys s) :
    List.lookup k (rowsOf s chunk now) =
      if chunk.contains k = true then liveRowVal s k now else none := by
  induction s with
  | nil =>
    cases hc : chunk.contains k <;> simp [rowsOf, liveRowVal, List.find?, hc]
  | cons e s' ih =>
    rw [nodupKeys, List.map_cons, List.nodup_cons] at hnd
    have ih' := ih hnd.2
    rw [rowsOf, List.filter_cons]
    by_cases hp : (chunk.contains e.key && live e now) = true
    · rw [if_pos hp]
      rw [List.map_cons, List.lookup_cons]
      rw [Bool.and_eq_true] at hp
      by_cases hk : k = e.key
      · have hke : (k == e.key) = true := by simp [hk]
        rw [hke]
        rw [if_pos (hk ▸ hp.1)]
        rw [liveRowVal]
        have hfind : List.find? (fun x => x.key == k && live x now) (e :: s') =
            some e := by
          simp only [List.find?]
          rw [show (e.key == k && live e now) = true by simp [hk, hp.2]]
        rw [hfind]
        rfl
      · have hke : (k == e.key) = false := by simp [hk]
        rw [hke]
        show List.lookup k (rowsOf s' chunk now) = _
        rw [ih']
        have hfind : List.find? (fun x => x.key == k && live x now) (e :: s') =
            List.find? (fun x => x.key == k && live x now) s' := by
          simp only [List.find?]
          rw [show (e.key == k && live e now) = false by
            simp only [Bool.and_eq_false_iff, beq_eq_false_iff_ne]
            exact Or.inl (fun hh => hk hh.symm)]
        conv_rhs => rw [liveRowVal]
        rw [hfind, ← liveRowVal]
    · rw [if_neg hp]
      show List.lookup k (rowsOf s' chunk now) = _
      rw [ih']
      by_cases hk : k = e.key
      · by_cases hc : chunk.contains k = true
        · rw [if_pos hc, if_pos hc]
          have hlive : live e now = false := by
            cases hl : live e now
            · rfl
            · exact absurd
                (by rw [← hk, hc, hl]; rfl :
                  (chunk.contains e.key && live e now) = true)
                hp
          rw [liveRowVal, liveRowVal]
          have hfind : List.find? (fun x => x.key == k && live x now) (e :: s') =
              List.find? (fun x => x.key == k && live x now) s' := by
            simp only [List.find?]
            rw [show (e.key == k && live e now) = false by
              rw [Bool.and_eq_false_iff]
              exact Or.inr hlive]
          rw [hfind]
        · rw [if_neg hc, if_neg hc]
      · have hfind : List.find? (fun x => x.key == k && live x now) (e :: s') =
            List.find? (fun x => x.key == k && live x now) s' := by
          simp only [List.find?]
          rw [show (e.key == k && live e now) = false by
            simp only [Bool.and_eq_false_iff, beq_eq_false_iff_ne]
            exact Or.inl (fun hh => hk hh.symm)]
        conv_rhs => rw [liveRowVal]
        rw [hfind, ← liveRowVal]

theorem flatten_chunksOf (n : Nat) (hn : n ≠ 0) (xs : List String) :
    (chunksOf n xs).flatten = xs := by
  by_cases hcase : xs = [] ∨ n = 0
  · rcases hcase with rfl | h
    · rw [chunksOf]
      rfl
    · exact absurd h hn
  · rw [chunksOf, dif_neg hcase, List.flatten_cons,
      flatten_chunksOf n hn (xs.drop n)]
    exact List.take_append_drop n xs
termination_by xs.length
decreasing_by
  simp_wf
  push_neg at hcase
  exact ⟨List.length_pos.mpr hcase.1, Nat.pos_of_ne_zero hcase.2⟩

theorem any_chunksOf_contains (ks : List String) (k : String) :
    ((chunksOf 1000 ks).any (fun c => c.contains k) = true) ↔ k ∈ ks := by
  rw [List.any_eq_true]
  constructor
  · rintro ⟨c, hc, hck⟩
    rw [← flatten_chunksOf 1000 (by norm_num) ks]
    rw [List.mem_flatten]
    exact ⟨c, hc, by simpa using hck⟩
  · intro hk
    rw [← flatten_chunksOf 1000 (by norm_num) ks, List.mem_flatten] at hk
    obtain ⟨c, hc, hck⟩ := hk
    exact ⟨c, hc, by simpa using hck⟩

theorem lookup_get_many_foldl (s : DBState) (now : Int) (hnd : nodupKeys s)
    (k : String) (chunks : List (List String)) :
    ∀ d : List (String × PyDecode),
      (∀ dval, List.lookup k d = some dval → liveRowVal s k now = some dval) →
      List.lookup k
        (chunks.foldl (fun acc c => dictUpdate acc (rowsOf s c now)) d) =
        (if chunks.any (fun c => c.contains k) = true then liveRowVal s k now
         else List.lookup k d) := by
  induction chunks with
  | nil => intro d _; simp
  | cons c rest ih =>
    intro d hd
    rw [List.foldl_cons]
    have hdnew : ∀ dval,
        List.lookup k (dictUpdate d (rowsOf s c now)) = some dval →
          liveRowVal s k now = some dval := by
      intro dval hdv
      rw [lookup_dictUpdate (rowsOf s c now) d k
        (rowsOf_keys_nodup s c now hnd)] at hdv
      rw [lookup_rowsOf s now c k hnd] at hdv
      by_cases hc : c.contains k = true
      · rw [if_pos hc] at hdv
        cases hlv : liveRowVal s k now with
        | some w =>
          rw [hlv] at hdv
          exact hdv
        | none =>
          rw [hlv] at hdv
          have hdv2 : List.lookup k d = some dval := hdv
          rw [← hlv]
          exact hd dval hdv2
      · rw [if_neg hc] at hdv
        have hdv2 : List.lookup k d = some dval := hdv
        exact hd dval hdv2
    rw [ih (dictUpdate d (rowsOf s c now)) hdnew]
    rw [List.any_cons]
    by_cases hrest : rest.any (fun c2 => c2.contains k) = true
    · rw [if_pos hrest]
      rw [if_pos (by rw [hrest, Bool.or_true])]
    · rw [if_neg hrest]
      rw [lookup_dictUpdate (rowsOf s c now) d k
        (rowsOf_keys_nodup s c now hnd)]
      rw [lookup_rowsOf s now c k hnd]
      by_cases hc : c.contains k = true
      · rw [if_pos hc]
        rw [if_pos (by rw [hc, Bool.true_or])]
        cases hlv : liveRowVal s k now with
        | some w => rfl
        | none =>
          cases hd2 : List.lookup k d with
          | some dval => exact absurd (hd dval hd2) (by rw [hlv]; simp)
          | none => rfl
      · rw [if_neg hc]
        rw [if_neg (by
          rw [Bool.or_eq_true]
          rintro (h | h)
          · exact hc h
          · exact hrest h)]

/-- C8: for every key list (including lists longer than the internal batch
size of 1000), `get_many` maps exactly the requested keys that are present
and live to their decoded values; absent or expired keys are omitted, and
the chunked batches merge without dropping any key. -/
theorem claim_C8_get_many (s : DBState) (ks : List String) (now : Int)
    (k : String) (d : PyDecode) (hnd : nodupKeys s) :
    List.lookup k (Client.get_many s ks now).1 = some d ↔
      (k ∈ ks ∧ ∃ e, e ∈ s ∧ e.key = k ∧ live e now = true ∧
        d = decode_value e.value) := by
  rw [Client.get_many]
  show List.lookup k
      ((chunksOf 1000 ks).foldl
        (fun acc chunk => dictUpdate acc (rowsOf s chunk now)) []) = some d ↔ _
  rw [lookup_get_many_foldl s now hnd k (chunksOf 1000 ks) []
    (fun dval hdv => by cases hdv)]
  by_cases hin : (chunksOf 1000 ks).any (fun c => c.contains k) = true
  · rw [if_pos hin]
    have hks : k ∈ ks := (any_chunksOf_contains ks k).mp hin
    constructor
    · intro hlv
      rw [liveRowVal] at hlv
      cases hfind : List.find? (fun e => e.key == k && live e now) s with
      | none => rw [hfind] at hlv; cases hlv
      | some e =>
        rw [hfind] at hlv
        cases hlv
        have hmem := List.mem_of_find?_eq_some hfind
        have hpred := List.find?_some hfind
        rw [Bool.and_eq_true, beq_iff_eq] at hpred
        exact ⟨hks, e, hmem, hpred.1, hpred.2, rfl⟩
    · rintro ⟨-, e, he, hek, hlive, rfl⟩
      rw [liveRowVal]
      have hsome : (List.find? (fun x => x.key == k && live x now) s).isSome := by
        rw [List.find?_isSome]
        exact ⟨e, he, by simp [hek, hlive]⟩
      obtain ⟨e2, hfind⟩ := Option.isSome_iff_exists.mp hsome
      have hpred := List.find?_some hfind
      rw [Bool.and_eq_true, beq_iff_eq] at hpred
      have he2 : e2 = e :=
        eq_of_mem_nodupKeys s hnd e2 e (List.mem_of_find?_eq_some hfind) he
          (hpred.1.trans hek.symm)
      rw [hfind, he2]
      rfl
  · rw [if_neg hin]
    constructor
    · intro h
      cases h
    · rintro ⟨hks, -⟩
      exact absurd ((any_chunksOf_contains ks k).mpr hks) hin

theorem claim_C8_get_many_witness :
    nodupKeys [⟨"k1", [1, 9], none⟩, ⟨"k2", [1, 8], some 100⟩] ∧
      (List.lookup "k1"
        (Client.get_many [⟨"k1", [1, 9], none⟩, ⟨"k2", [1, 8], some 100⟩]
          ["k1", "k2", "k3"] 50).1 = some (PyDecode.val (Value.vbin [9])) ↔
        ("k1" ∈ ["k1", "k2", "k3"] ∧
          ∃ e, e ∈ [⟨"k1", [1, 9], none⟩, ⟨"k2", [1, 8], some 100⟩] ∧
            Entry.key e = "k1" ∧ live e 50 = true ∧
            PyDecode.val (Value.vbin [9]) = decode_value e.value)) :=
  ⟨by unfold nodupKeys; decide,
    claim_C8_get_many [⟨"k1", [1, 9], none⟩, ⟨"k2", [1, 8], some 100⟩]
      ["k1", "k2", "k3"] 50 "k1" (PyDecode.val (Value.vbin [9]))
      (by unfold nodupKeys; decide)⟩
